import Mathlib

/-!
# Verification of the 2-D quadtree spatial index (`quadtree.py`)

This file gives a shallow embedding of the quadtree implementation
(`QuadtreeNode` and `Quadtree` from `quadtree.py`) and proves the spec's
claims about it.

Modelling conventions:
* Python floats are modelled as exact rationals (`ℚ`); `0.01` is `1/100`
  and the coincidence epsilon `1e-10` is `1/10^10`.
* The `full_data` payload stored alongside each point is never consulted by
  any of the operations under verification (insert, query, depth), so a
  point is modelled as its two coordinates plus its integer identifier.
* `Quadtree.build` receives the already-projected 2-D coordinates (the
  Python code projects columns `x_dim`/`y_dim` of the input array before
  any quadtree logic runs) and inserts them in order with identifiers
  `0, 1, 2, …` exactly as `np.arange` supplies them.
* Python's recursive `insert`/`subdivide`/`_insert_to_child` are modelled
  with an explicit fuel parameter; the recursion of the source bottoms out
  because each hop descends to a child whose `depth` field is one larger
  and `subdivide` refuses to split at `max_depth`, and correspondingly the
  fuelled function is proved to be independent of the fuel once the fuel
  exceeds `max_depth - depth` (theorem for C10).
-/

/-- The coincidence epsilon used by `subdivide` (`1e-10` in the source). -/
def eps : ℚ := 1 / 10000000000

/-- A stored point: x and y coordinate plus the original dataset index
(the `(x, y, index, full_data)` tuples of the source, with the inert
`full_data` payload omitted). -/
structure Pt where
  x : ℚ
  y : ℚ
  idx : Nat
deriving DecidableEq, Repr

/-- The scalar fields of a `QuadtreeNode`: the bounds `x_min‥y_max`, the
split `capacity`, the node's `depth` and the tree-wide `max_depth`. -/
structure NodeData where
  x_min : ℚ
  x_max : ℚ
  y_min : ℚ
  y_max : ℚ
  capacity : Nat
  depth : Nat
  max_depth : Nat
deriving DecidableEq, Repr

/-- `QuadtreeNode.contains`: is `(x, y)` within this node's bounds
(inclusive on every side)? -/
def NodeData.contains (d : NodeData) (x y : ℚ) : Bool :=
  decide (d.x_min ≤ x) && decide (x ≤ d.x_max) &&
  decide (d.y_min ≤ y) && decide (y ≤ d.y_max)

/-- `QuadtreeNode.intersects`: does the query rectangle meet this node's
bounds?  Written exactly as the source: `not (x_max < self.x_min or
x_min > self.x_max or y_max < self.y_min or y_min > self.y_max)`. -/
def NodeData.intersects (d : NodeData) (x_min x_max y_min y_max : ℚ) : Bool :=
  !(decide (x_max < d.x_min) || decide (x_min > d.x_max) ||
    decide (y_max < d.y_min) || decide (y_min > d.y_max))

/-- `x_mid = (x_min + x_max) / 2` from `subdivide`. -/
def NodeData.x_mid (d : NodeData) : ℚ := (d.x_min + d.x_max) / 2

/-- `y_mid = (y_min + y_max) / 2` from `subdivide`. -/
def NodeData.y_mid (d : NodeData) : ℚ := (d.y_min + d.y_max) / 2

/-- Scalar data of the NW child created by `subdivide`. -/
def nwData (d : NodeData) : NodeData :=
  ⟨d.x_min, d.x_mid, d.y_mid, d.y_max, d.capacity, d.depth + 1, d.max_depth⟩

/-- Scalar data of the NE child created by `subdivide`. -/
def neData (d : NodeData) : NodeData :=
  ⟨d.x_mid, d.x_max, d.y_mid, d.y_max, d.capacity, d.depth + 1, d.max_depth⟩

/-- Scalar data of the SW child created by `subdivide`. -/
def swData (d : NodeData) : NodeData :=
  ⟨d.x_min, d.x_mid, d.y_min, d.y_mid, d.capacity, d.depth + 1, d.max_depth⟩

/-- Scalar data of the SE child created by `subdivide`. -/
def seData (d : NodeData) : NodeData :=
  ⟨d.x_mid, d.x_max, d.y_min, d.y_mid, d.capacity, d.depth + 1, d.max_depth⟩

/-- A `QuadtreeNode`.  `leaf` is the `is_divided = False` state (points
held locally, the four child slots `None`); `inner` is the
`is_divided = True` state (four children present).  The `inner`
constructor keeps a `points` list because the Python object retains its
`self.points` field after subdividing — that list being empty is part of
the invariant to be proved, not of the data type. -/
inductive QNode where
  | leaf (d : NodeData) (points : List Pt)
  | inner (d : NodeData) (points : List Pt) (nw ne sw se : QNode)
deriving DecidableEq, Repr

/-- The scalar fields of a node. -/
def QNode.data : QNode → NodeData
  | leaf d _ => d
  | inner d _ _ _ _ _ => d

/-- The node's own `self.points` list. -/
def QNode.points : QNode → List Pt
  | leaf _ pts => pts
  | inner _ pts _ _ _ _ => pts

/-- The `is_divided` flag. -/
def QNode.is_divided : QNode → Bool
  | leaf _ _ => false
  | inner _ _ _ _ _ _ => true

/-- The coincidence test of `subdivide`: every stored point is within
`eps` of the first stored point in both coordinates. -/
def allSamePoints : List Pt → Bool
  | [] => true
  | p0 :: rest =>
    (p0 :: rest).all fun p =>
      decide (|p.x - p0.x| < eps) && decide (|p.y - p0.y| < eps)

/-- `QuadtreeNode._insert_to_child`, parameterized by the recursive insert
used on the chosen child (`child.insert` in the source): try the children
in source order NW, NE, SW, SE, delegate to the first whose region
contains the point, and fail if none does.  Calling it on an undivided
node is impossible in the source (the children would be `None`); that
case is mapped to failure. -/
def insertToChildWith (rec : QNode → ℚ → ℚ → Nat → QNode × Bool) :
    QNode → ℚ → ℚ → Nat → QNode × Bool
  | QNode.leaf d pts, _, _, _ => (QNode.leaf d pts, false)
  | QNode.inner d pts nw ne sw se, x, y, index =>
    if nw.data.contains x y then
      let r := rec nw x y index
      (QNode.inner d pts r.1 ne sw se, r.2)
    else if ne.data.contains x y then
      let r := rec ne x y index
      (QNode.inner d pts nw r.1 sw se, r.2)
    else if sw.data.contains x y then
      let r := rec sw x y index
      (QNode.inner d pts nw ne r.1 se, r.2)
    else if se.data.contains x y then
      let r := rec se x y index
      (QNode.inner d pts nw ne sw r.1, r.2)
    else (QNode.inner d pts nw ne sw se, false)

/-- The final `self.points = []` statement of a successful `subdivide`. -/
def QNode.clearPoints : QNode → QNode
  | QNode.leaf d pts => QNode.leaf d pts
  | QNode.inner d _ nw ne sw se => QNode.inner d [] nw ne sw se

/-- `QuadtreeNode.subdivide`, parameterized by the recursive insert used
during redistribution: refuse at `max_depth`, refuse when more than one
point is held and all are coincident, otherwise create the four midpoint
children, redistribute every held point through `_insert_to_child`
(whose Boolean result the source discards), and clear the point list. -/
def subdivideWith (rec : QNode → ℚ → ℚ → Nat → QNode × Bool) :
    QNode → QNode
  | QNode.inner d pts nw ne sw se => QNode.inner d pts nw ne sw se
  | QNode.leaf d pts =>
    if d.max_depth ≤ d.depth then QNode.leaf d pts
    else if decide (1 < pts.length) && allSamePoints pts then QNode.leaf d pts
    else
      QNode.clearPoints
        ((pts.foldl (fun acc p => (insertToChildWith rec acc p.x p.y p.idx).1)
          (QNode.inner d pts
            (QNode.leaf (nwData d) []) (QNode.leaf (neData d) [])
            (QNode.leaf (swData d) []) (QNode.leaf (seData d) []))))

/-- `QuadtreeNode.insert`, with fuel bounding the recursion depth (the
recursion of the source descends one `depth` level per call; fuel at
least `max_depth + 1 - depth` is proved sufficient below).  Out of fuel
the call fails leaving the node unchanged — a state the source never
reaches from a well-formed root, per the fuel-independence theorem. -/
def insertFuel : Nat → QNode → ℚ → ℚ → Nat → QNode × Bool
  | 0, n, _, _, _ => (n, false)
  | fuel + 1, n, x, y, index =>
    if n.data.contains x y = false then (n, false)
    else
      match n with
      | QNode.leaf d pts =>
        if pts.length < d.capacity then
          (QNode.leaf d (pts ++ [⟨x, y, index⟩]), true)
        else if d.max_depth ≤ d.depth then
          (QNode.leaf d (pts ++ [⟨x, y, index⟩]), true)
        else
          match subdivideWith (insertFuel fuel) (QNode.leaf d pts) with
          | QNode.leaf d2 pts2 => (QNode.leaf d2 (pts2 ++ [⟨x, y, index⟩]), true)
          | QNode.inner d2 pts2 nw ne sw se =>
            insertToChildWith (insertFuel fuel)
              (QNode.inner d2 pts2 nw ne sw se) x y index
      | QNode.inner d pts nw ne sw se =>
        insertToChildWith (insertFuel fuel)
          (QNode.inner d pts nw ne sw se) x y index

/-- `_insert_to_child` at a given fuel level. -/
def insertToChildFuel (fuel : Nat) : QNode → ℚ → ℚ → Nat → QNode × Bool :=
  insertToChildWith (insertFuel fuel)

/-- `subdivide` at a given fuel level. -/
def subdivideFuel (fuel : Nat) : QNode → QNode :=
  subdivideWith (insertFuel fuel)

/-- The point-in-query-rectangle test of `query_range` (line
`x_min <= x <= x_max and y_min <= y <= y_max`). -/
def inRange (x_min x_max y_min y_max : ℚ) (p : Pt) : Bool :=
  decide (x_min ≤ p.x) && decide (p.x ≤ x_max) &&
  decide (y_min ≤ p.y) && decide (p.y ≤ y_max)

/-- `QuadtreeNode.query_range`: prune when the rectangle misses the
node's bounds, otherwise collect the indices of the node's own matching
points and recurse into all four children in source order. -/
def QNode.query_range : QNode → ℚ → ℚ → ℚ → ℚ → List Nat
  | QNode.leaf d pts, x_min, x_max, y_min, y_max =>
    if d.intersects x_min x_max y_min y_max = false then []
    else (pts.filter (inRange x_min x_max y_min y_max)).map Pt.idx
  | QNode.inner d pts nw ne sw se, x_min, x_max, y_min, y_max =>
    if d.intersects x_min x_max y_min y_max = false then []
    else
      (pts.filter (inRange x_min x_max y_min y_max)).map Pt.idx
        ++ nw.query_range x_min x_max y_min y_max
        ++ ne.query_range x_min x_max y_min y_max
        ++ sw.query_range x_min x_max y_min y_max
        ++ se.query_range x_min x_max y_min y_max

/-- `Quadtree._get_depth_recursive` on a non-`None` node: 1 for an
undivided node, otherwise 1 plus the maximum over the four children. -/
def QNode.getDepthRec : QNode → Nat
  | QNode.leaf _ _ => 1
  | QNode.inner _ _ nw ne sw se =>
    1 + max (max nw.getDepthRec ne.getDepthRec) (max sw.getDepthRec se.getDepthRec)

/-- The `Quadtree` wrapper: configuration, optional root, running size.
The `x_dim`/`y_dim` projection indices are not modelled because `build`
here receives the already-projected 2-D coordinates. -/
structure Quadtree where
  capacity : Nat
  max_depth : Nat
  root : Option QNode
  size : Nat
deriving Repr

/-- The insertion loop of `Quadtree.build` (`for i, idx in
enumerate(indices): self.root.insert(...)` with `indices = np.arange`):
inserts each point with its position as identifier.  The Boolean records
whether every individual insert returned `True`; the source discards
each return value, so `build` keeps only the node. -/
def buildLoop (fuel : Nat) : QNode → List (ℚ × ℚ) → Nat → QNode × Bool
  | n, [], _ => (n, true)
  | n, q :: qs, i =>
    let r := insertFuel fuel n q.1 q.2 i
    let rest := buildLoop fuel r.1 qs (i + 1)
    (rest.1, r.2 && rest.2)

/-- `Quadtree.build` over the projected 2-D points: bounds are the
per-coordinate minima/maxima padded by 1% of the extent on each side,
the root starts as an empty leaf at depth 0, and every point is inserted
in order with identifier equal to its position; `size` is incremented
once per input point regardless of the insert's Boolean result.  On an
empty input the source raises inside `np.min`; that case yields the
rootless tree here and is outside every claim, which all require a
non-empty input. -/
def Quadtree.build (capacity max_depth : Nat) (pts : List (ℚ × ℚ)) : Quadtree :=
  match pts with
  | [] => ⟨capacity, max_depth, none, 0⟩
  | p :: rest =>
    let x_lo := (rest.map Prod.fst).foldl min p.1
    let x_hi := (rest.map Prod.fst).foldl max p.1
    let y_lo := (rest.map Prod.snd).foldl min p.2
    let y_hi := (rest.map Prod.snd).foldl max p.2
    let x_pad := (x_hi - x_lo) * (1 / 100)
    let y_pad := (y_hi - y_lo) * (1 / 100)
    let root0 : QNode :=
      QNode.leaf
        ⟨x_lo - x_pad, x_hi + x_pad, y_lo - y_pad, y_hi + y_pad,
          capacity, 0, max_depth⟩ []
    ⟨capacity, max_depth, some (buildLoop (max_depth + 1) root0 pts 0).1,
      pts.length⟩

/-- `Quadtree.query_range`: empty on a rootless tree, else the root's
range query. -/
def Quadtree.query_range (t : Quadtree) (x_range y_range : ℚ × ℚ) : List Nat :=
  match t.root with
  | none => []
  | some r => r.query_range x_range.1 x_range.2 y_range.1 y_range.2

/-- `Quadtree.get_depth`: `_get_depth_recursive` returns 1 on a `None`
root, else the recursive depth of the root. -/
def Quadtree.get_depth (t : Quadtree) : Nat :=
  match t.root with
  | none => 1
  | some r => r.getDepthRec

/-- The multiset of all points stored anywhere in a subtree. -/
def QNode.toMul : QNode → Multiset Pt
  | QNode.leaf _ pts => (pts : Multiset Pt)
  | QNode.inner _ pts nw ne sw se =>
    (pts : Multiset Pt) + nw.toMul + ne.toMul + sw.toMul + se.toMul

/-- A node's bounds are a genuine box: min ≤ max in both dimensions. -/
def boxValid (d : NodeData) : Prop := d.x_min ≤ d.x_max ∧ d.y_min ≤ d.y_max

/-- The structural invariant maintained by every reachable tree, indexed
by the shared capacity `C` and maximum depth `M` and by the node's depth
`dep`: bounds are valid, the configuration fields are propagated
unchanged, every locally stored point lies inside the node's bounds, and
a divided node has an empty local point list, depth strictly below `M`,
and four children whose scalar data are exactly the midpoint subdivision
of its own. -/
inductive QInv (C M : Nat) : Nat → QNode → Prop where
  | leaf : ∀ (d : NodeData) (pts : List Pt) (dep : Nat),
      boxValid d → d.capacity = C → d.max_depth = M → d.depth = dep →
      (∀ p ∈ pts, d.contains p.x p.y = true) →
      QInv C M dep (QNode.leaf d pts)
  | inner : ∀ (d : NodeData) (dep : Nat) (nw ne sw se : QNode),
      boxValid d → d.capacity = C → d.max_depth = M → d.depth = dep →
      dep < M →
      nw.data = nwData d → ne.data = neData d →
      sw.data = swData d → se.data = seData d →
      QInv C M (dep + 1) nw → QInv C M (dep + 1) ne →
      QInv C M (dep + 1) sw → QInv C M (dep + 1) se →
      QInv C M dep (QNode.inner d [] nw ne sw se)

/-- The pieces of the `QInv.inner` case, detached from the node's own
point list: box validity, configuration propagation, depth strictly
below the maximum, the four children's scalar data being the exact
midpoint subdivision, and the children themselves satisfying `QInv`.
Used to reason about the intermediate states of `subdivide`, whose node
still holds its points while they are being redistributed. -/
def InnerParts (C M dep : Nat) (d : NodeData) (nw ne sw se : QNode) : Prop :=
  boxValid d ∧ d.capacity = C ∧ d.max_depth = M ∧ d.depth = dep ∧ dep < M ∧
  nw.data = nwData d ∧ ne.data = neData d ∧
  sw.data = swData d ∧ se.data = seData d ∧
  QInv C M (dep + 1) nw ∧ QInv C M (dep + 1) ne ∧
  QInv C M (dep + 1) sw ∧ QInv C M (dep + 1) se

/-- Specification of a recursive insert callback at depth `dep1`: on an
invariant-satisfying node whose region contains the point, it succeeds,
preserves the invariant and the node's scalar data, and adds exactly the
new point to the subtree's multiset.  `insertFuel fuel` is proved to
satisfy this whenever `fuel` is at least `M + 1 - dep1`. -/
def RecSpec (C M dep1 : Nat) (rec : QNode → ℚ → ℚ → Nat → QNode × Bool) : Prop :=
  ∀ n x y i, QInv C M dep1 n → n.data.contains x y = true →
    ∃ n', rec n x y i = (n', true) ∧ QInv C M dep1 n' ∧
      n'.data = n.data ∧ n'.toMul = (⟨x, y, i⟩ : Pt) ::ₘ n.toMul

/-- `(x, y)` lies on the boundary of the box of `d`. -/
def onBoundary (d : NodeData) (x y : ℚ) : Prop :=
  x = d.x_min ∨ x = d.x_max ∨ y = d.y_min ∨ y = d.y_max

/-- Boxes `a` and `b` overlap at most on their shared boundary: any point
contained in both lies on the boundary of each. -/
def pairBoundaryOnly (a b : NodeData) : Prop :=
  ∀ x y, a.contains x y = true → b.contains x y = true →
    onBoundary a x y ∧ onBoundary b x y

/-- The leaf-or-internal shape property claimed by the spec, stated
recursively over the whole tree: a leaf is unconstrained, and a divided
node has an empty local point list and four children whose regions are
the midpoint subdivision of its own — a subdivision that covers the
parent's region exactly and whose parts overlap only on shared
boundaries. -/
def NodeOK : QNode → Prop
  | QNode.leaf _ _ => True
  | QNode.inner d pts nw ne sw se =>
    pts = [] ∧
    nw.data = nwData d ∧ ne.data = neData d ∧
    sw.data = swData d ∧ se.data = seData d ∧
    (∀ x y, d.contains x y = true ↔
      ((nwData d).contains x y = true ∨ (neData d).contains x y = true ∨
       (swData d).contains x y = true ∨ (seData d).contains x y = true)) ∧
    pairBoundaryOnly (nwData d) (neData d) ∧
    pairBoundaryOnly (nwData d) (swData d) ∧
    pairBoundaryOnly (nwData d) (seData d) ∧
    pairBoundaryOnly (neData d) (swData d) ∧
    pairBoundaryOnly (neData d) (seData d) ∧
    pairBoundaryOnly (swData d) (seData d) ∧
    NodeOK nw ∧ NodeOK ne ∧ NodeOK sw ∧ NodeOK se

/-- The points `build` inserts, with the identifiers `enumerate` pairs
them with, starting from `start`. -/
def labelPts : List (ℚ × ℚ) → Nat → List Pt
  | [], _ => []
  | q :: qs, i => ⟨q.1, q.2, i⟩ :: labelPts qs (i + 1)

/-- A sequence of further `root.insert` calls after a build, each run
with the fuel proved sufficient for a root (`max_depth + 1`). -/
def insertSeq (fuel : Nat) : QNode → List (ℚ × ℚ × Nat) → QNode
  | n, [] => n
  | n, q :: qs => insertSeq fuel (insertFuel fuel n q.1 q.2.1 q.2.2).1 qs

/-- The tree after a sequence of further `root.insert` calls (a no-op on
a rootless tree, matching the `None` guard of the wrapper methods). -/
def Quadtree.insertMore (t : Quadtree) (more : List (ℚ × ℚ × Nat)) : Quadtree :=
  ⟨t.capacity, t.max_depth, t.root.map (fun r => insertSeq (t.max_depth + 1) r more),
    t.size⟩

/-- The root node's scalar data (zeros for a rootless tree). -/
def Quadtree.rootData (t : Quadtree) : NodeData :=
  match t.root with
  | none => ⟨0, 0, 0, 0, 0, 0, 0⟩
  | some r => r.data

/-- Runs exactly the insertion loop of `Quadtree.build` and reports
whether every individual `insert` call returned `True` — the Boolean
evidence the source computes but discards. -/
def buildOk (capacity max_depth : Nat) (pts : List (ℚ × ℚ)) : Bool :=
  match pts with
  | [] => true
  | p :: rest =>
    let x_lo := (rest.map Prod.fst).foldl min p.1
    let x_hi := (rest.map Prod.fst).foldl max p.1
    let y_lo := (rest.map Prod.snd).foldl min p.2
    let y_hi := (rest.map Prod.snd).foldl max p.2
    let x_pad := (x_hi - x_lo) * (1 / 100)
    let y_pad := (y_hi - y_lo) * (1 / 100)
    let root0 : QNode :=
      QNode.leaf
        ⟨x_lo - x_pad, x_hi + x_pad, y_lo - y_pad, y_hi + y_pad,
          capacity, 0, max_depth⟩ []
    (buildLoop (max_depth + 1) root0 pts 0).2

/-! ## Basic characterizations of the geometry predicates -/

/-- `contains` holds exactly when both coordinates are within the
inclusive bounds. -/
theorem contains_iff (d : NodeData) (x y : ℚ) :
    d.contains x y = true ↔
      (d.x_min ≤ x ∧ x ≤ d.x_max ∧ d.y_min ≤ y ∧ y ≤ d.y_max) := by
  simp [NodeData.contains, and_assoc]

/-- `intersects` holds exactly when the two rectangles meet in both
dimensions (touching boundaries included). -/
theorem intersects_iff (d : NodeData) (x_min x_max y_min y_max : ℚ) :
    d.intersects x_min x_max y_min y_max = true ↔
      (d.x_min ≤ x_max ∧ x_min ≤ d.x_max ∧ d.y_min ≤ y_max ∧ y_min ≤ d.y_max) := by
  simp only [NodeData.intersects, Bool.not_eq_true', Bool.or_eq_false_iff,
    decide_eq_false_iff_not, not_lt, gt_iff_lt, and_assoc]

/-- `inRange` holds exactly when the point is inside the query
rectangle, inclusively. -/
theorem inRange_iff (x_min x_max y_min y_max : ℚ) (p : Pt) :
    inRange x_min x_max y_min y_max p = true ↔
      (x_min ≤ p.x ∧ p.x ≤ x_max ∧ y_min ≤ p.y ∧ p.y ≤ y_max) := by
  simp [inRange, and_assoc]

/-! ## Geometry of the midpoint subdivision -/

/-- The x midpoint lies between the x bounds of a valid box. -/
theorem x_mid_between (d : NodeData) (h : boxValid d) :
    d.x_min ≤ d.x_mid ∧ d.x_mid ≤ d.x_max := by
  obtain ⟨h1, _⟩ := h
  constructor <;> (simp only [NodeData.x_mid]; linarith)

/-- The y midpoint lies between the y bounds of a valid box. -/
theorem y_mid_between (d : NodeData) (h : boxValid d) :
    d.y_min ≤ d.y_mid ∧ d.y_mid ≤ d.y_max := by
  obtain ⟨_, h2⟩ := h
  constructor <;> (simp only [NodeData.y_mid]; linarith)

/-- All four child boxes of a valid box are valid. -/
theorem childData_valid (d : NodeData) (h : boxValid d) :
    boxValid (nwData d) ∧ boxValid (neData d) ∧
    boxValid (swData d) ∧ boxValid (seData d) := by
  obtain ⟨hx1, hx2⟩ := x_mid_between d h
  obtain ⟨hy1, hy2⟩ := y_mid_between d h
  refine ⟨⟨hx1, hy2⟩, ⟨hx2, hy2⟩, ⟨hx1, hy1⟩, ⟨hx2, hy1⟩⟩

/-- A point contained in any child box is contained in the parent box. -/
theorem child_contains_sub (d : NodeData) (h : boxValid d) (x y : ℚ) :
    ((nwData d).contains x y = true → d.contains x y = true) ∧
    ((neData d).contains x y = true → d.contains x y = true) ∧
    ((swData d).contains x y = true → d.contains x y = true) ∧
    ((seData d).contains x y = true → d.contains x y = true) := by
  obtain ⟨hx1, hx2⟩ := x_mid_between d h
  obtain ⟨hy1, hy2⟩ := y_mid_between d h
  simp only [contains_iff, nwData, neData, swData, seData]
  refine ⟨?_, ?_, ?_, ?_⟩ <;> (rintro ⟨a, b, c, e⟩; exact ⟨by linarith, by linarith, by linarith, by linarith⟩)

/-- Coverage: every point of the parent box lies in at least one of the
four child boxes created by midpoint subdivision. -/
theorem cover_children (d : NodeData) (x y : ℚ) (h : d.contains x y = true) :
    (nwData d).contains x y = true ∨ (neData d).contains x y = true ∨
    (swData d).contains x y = true ∨ (seData d).contains x y = true := by
  rw [contains_iff] at h
  obtain ⟨h1, h2, h3, h4⟩ := h
  rcases le_total x d.x_mid with hx | hx <;> rcases le_total y d.y_mid with hy | hy
  · exact Or.inr (Or.inr (Or.inl (by simp only [contains_iff, swData]; exact ⟨h1, hx, h3, hy⟩)))
  · exact Or.inl (by simp only [contains_iff, nwData]; exact ⟨h1, hx, hy, h4⟩)
  · exact Or.inr (Or.inr (Or.inr (by simp only [contains_iff, seData]; exact ⟨hx, h2, h3, hy⟩)))
  · exact Or.inr (Or.inl (by simp only [contains_iff, neData]; exact ⟨hx, h2, hy, h4⟩))

/-- Exact coverage, as an unconditional equivalence: a point is in the
parent box iff it is in some child box. -/
theorem cover_children_iff (d : NodeData) (x y : ℚ) :
    d.contains x y = true ↔
      ((nwData d).contains x y = true ∨ (neData d).contains x y = true ∨
       (swData d).contains x y = true ∨ (seData d).contains x y = true) := by
  constructor
  · exact cover_children d x y
  · intro h
    rcases h with h | h | h | h
    · rw [contains_iff] at h ⊢
      simp only [nwData, NodeData.x_mid, NodeData.y_mid] at h
      obtain ⟨a, b, c, e⟩ := h
      exact ⟨a, by linarith, by linarith, e⟩
    · rw [contains_iff] at h ⊢
      simp only [neData, NodeData.x_mid, NodeData.y_mid] at h
      obtain ⟨a, b, c, e⟩ := h
      exact ⟨by linarith, b, by linarith, e⟩
    · rw [contains_iff] at h ⊢
      simp only [swData, NodeData.x_mid, NodeData.y_mid] at h
      obtain ⟨a, b, c, e⟩ := h
      exact ⟨a, by linarith, c, by linarith⟩
    · rw [contains_iff] at h ⊢
      simp only [seData, NodeData.x_mid, NodeData.y_mid] at h
      obtain ⟨a, b, c, e⟩ := h
      exact ⟨by linarith, b, c, by linarith⟩

/-- The six pairs of child boxes overlap only on their shared
boundaries: a point lying in two of them lies on the boundary of each. -/
theorem pairBoundary_all (d : NodeData) :
    pairBoundaryOnly (nwData d) (neData d) ∧
    pairBoundaryOnly (nwData d) (swData d) ∧
    pairBoundaryOnly (nwData d) (seData d) ∧
    pairBoundaryOnly (neData d) (swData d) ∧
    pairBoundaryOnly (neData d) (seData d) ∧
    pairBoundaryOnly (swData d) (seData d) := by
  refine ⟨?_, ?_, ?_, ?_, ?_, ?_⟩
  · intro x y h1 h2
    rw [contains_iff] at h1 h2
    simp only [nwData, neData] at h1 h2
    obtain ⟨a1, b1, c1, e1⟩ := h1
    obtain ⟨a2, b2, c2, e2⟩ := h2
    unfold onBoundary
    simp only [nwData, neData]
    exact ⟨Or.inr (Or.inl (le_antisymm b1 a2)), Or.inl (le_antisymm b1 a2)⟩
  · intro x y h1 h2
    rw [contains_iff] at h1 h2
    simp only [nwData, swData] at h1 h2
    obtain ⟨a1, b1, c1, e1⟩ := h1
    obtain ⟨a2, b2, c2, e2⟩ := h2
    unfold onBoundary
    simp only [nwData, swData]
    exact ⟨Or.inr (Or.inr (Or.inl (le_antisymm e2 c1))),
      Or.inr (Or.inr (Or.inr (le_antisymm e2 c1)))⟩
  · intro x y h1 h2
    rw [contains_iff] at h1 h2
    simp only [nwData, seData] at h1 h2
    obtain ⟨a1, b1, c1, e1⟩ := h1
    obtain ⟨a2, b2, c2, e2⟩ := h2
    unfold onBoundary
    simp only [nwData, seData]
    exact ⟨Or.inr (Or.inl (le_antisymm b1 a2)), Or.inl (le_antisymm b1 a2)⟩
  · intro x y h1 h2
    rw [contains_iff] at h1 h2
    simp only [neData, swData] at h1 h2
    obtain ⟨a1, b1, c1, e1⟩ := h1
    obtain ⟨a2, b2, c2, e2⟩ := h2
    unfold onBoundary
    simp only [neData, swData]
    exact ⟨Or.inl (le_antisymm b2 a1), Or.inr (Or.inl (le_antisymm b2 a1))⟩
  · intro x y h1 h2
    rw [contains_iff] at h1 h2
    simp only [neData, seData] at h1 h2
    obtain ⟨a1, b1, c1, e1⟩ := h1
    obtain ⟨a2, b2, c2, e2⟩ := h2
    unfold onBoundary
    simp only [neData, seData]
    exact ⟨Or.inr (Or.inr (Or.inl (le_antisymm e2 c1))),
      Or.inr (Or.inr (Or.inr (le_antisymm e2 c1)))⟩
  · intro x y h1 h2
    rw [contains_iff] at h1 h2
    simp only [swData, seData] at h1 h2
    obtain ⟨a1, b1, c1, e1⟩ := h1
    obtain ⟨a2, b2, c2, e2⟩ := h2
    unfold onBoundary
    simp only [swData, seData]
    exact ⟨Or.inr (Or.inl (le_antisymm b1 a2)), Or.inl (le_antisymm b1 a2)⟩

/-! ## Multiset bookkeeping -/

/-- Appending one point to a list is adding it to the multiset. -/
theorem coe_append_singleton (l : List Pt) (p : Pt) :
    ((l ++ [p] : List Pt) : Multiset Pt) = p ::ₘ (l : Multiset Pt) := by
  simp [Multiset.cons_coe]

/-- `toMul` of a leaf. -/
theorem toMul_leaf (d : NodeData) (pts : List Pt) :
    (QNode.leaf d pts).toMul = (pts : Multiset Pt) := rfl

/-- `toMul` of a divided node. -/
theorem toMul_inner (d : NodeData) (pts : List Pt) (nw ne sw se : QNode) :
    (QNode.inner d pts nw ne sw se).toMul =
      (pts : Multiset Pt) + nw.toMul + ne.toMul + sw.toMul + se.toMul := rfl

/-- Every point stored anywhere in an invariant-satisfying subtree lies
within that subtree's bounding box. -/
theorem toMul_contains (C M dep : Nat) (n : QNode) (h : QInv C M dep n) :
    ∀ p ∈ n.toMul, n.data.contains p.x p.y = true := by
  induction h with
  | leaf d pts dep hv hcap hmax hdep hpts =>
    intro p hp
    exact hpts p (by simpa using hp)
  | inner d dep nw ne sw se hv hcap hmax hdep hdepM hnw hne hsw hse inw ine isw ise ih1 ih2 ih3 ih4 =>
    intro p hp
    have hsub := child_contains_sub d hv p.x p.y
    simp only [toMul_inner, Multiset.mem_add] at hp
    show d.contains p.x p.y = true
    rcases hp with ((((hp | hp) | hp) | hp) | hp)
    · simp at hp
    · exact hsub.1 (hnw ▸ ih1 p hp)
    · exact hsub.2.1 (hne ▸ ih2 p hp)
    · exact hsub.2.2.1 (hsw ▸ ih3 p hp)
    · exact hsub.2.2.2 (hse ▸ ih4 p hp)

/-! ## The invariant through insertion -/

/-- Destructing `QInv` on a divided node. -/
theorem innerParts_of_inv (C M dep : Nat) (d : NodeData) (pts : List Pt)
    (nw ne sw se : QNode) (h : QInv C M dep (QNode.inner d pts nw ne sw se)) :
    pts = [] ∧ InnerParts C M dep d nw ne sw se := by
  cases h with
  | inner d dep nw ne sw se hv hcap hmax hdep hdepM hnw hne hsw hse inw ine isw ise =>
    exact ⟨rfl, hv, hcap, hmax, hdep, hdepM, hnw, hne, hsw, hse, inw, ine, isw, ise⟩

/-- Rebuilding `QInv` on a divided node with an empty point list. -/
theorem inv_of_innerParts (C M dep : Nat) (d : NodeData) (nw ne sw se : QNode)
    (h : InnerParts C M dep d nw ne sw se) :
    QInv C M dep (QNode.inner d [] nw ne sw se) := by
  obtain ⟨hv, hcap, hmax, hdep, hdepM, hnw, hne, hsw, hse, inw, ine, isw, ise⟩ := h
  exact QInv.inner d dep nw ne sw se hv hcap hmax hdep hdepM hnw hne hsw hse inw ine isw ise

/-- `_insert_to_child` on a divided node satisfying the invariant parts:
when the parent's region contains the point, some child's region does
too (so the fall-through failure branch is not taken), the chosen
child's insert succeeds, and the invariant parts and the subtree
multiset-plus-one are preserved. -/
theorem insertToChildWith_ok (C M dep : Nat)
    (rec : QNode → ℚ → ℚ → Nat → QNode × Bool)
    (hrec : RecSpec C M (dep + 1) rec)
    (d : NodeData) (pts : List Pt) (nw ne sw se : QNode)
    (hp : InnerParts C M dep d nw ne sw se)
    (x y : ℚ) (i : Nat) (hc : d.contains x y = true) :
    ∃ nw' ne' sw' se',
      insertToChildWith rec (QNode.inner d pts nw ne sw se) x y i =
        (QNode.inner d pts nw' ne' sw' se', true) ∧
      InnerParts C M dep d nw' ne' sw' se' ∧
      nw'.toMul + ne'.toMul + sw'.toMul + se'.toMul =
        (⟨x, y, i⟩ : Pt) ::ₘ (nw.toMul + ne.toMul + sw.toMul + se.toMul) := by
  obtain ⟨hv, hcap, hmax, hdep, hdepM, hnw, hne, hsw, hse, inw, ine, isw, ise⟩ := hp
  by_cases h1 : nw.data.contains x y = true
  · obtain ⟨nw', heq, hinv', hdata', hmul'⟩ := hrec nw x y i inw h1
    refine ⟨nw', ne, sw, se, ?_, ?_, ?_⟩
    · simp only [insertToChildWith, h1, if_true, heq]
    · exact ⟨hv, hcap, hmax, hdep, hdepM, hdata' ▸ hnw, hne, hsw, hse, hinv', ine, isw, ise⟩
    · rw [hmul']
      simp only [Multiset.cons_add]
  · by_cases h2 : ne.data.contains x y = true
    · obtain ⟨ne', heq, hinv', hdata', hmul'⟩ := hrec ne x y i ine h2
      refine ⟨nw, ne', sw, se, ?_, ?_, ?_⟩
      · simp only [insertToChildWith, h1, h2, if_true, if_false, Bool.false_eq_true, heq]
      · exact ⟨hv, hcap, hmax, hdep, hdepM, hnw, hdata' ▸ hne, hsw, hse, inw, hinv', isw, ise⟩
      · rw [hmul']
        simp only [Multiset.cons_add, Multiset.add_cons]
    · by_cases h3 : sw.data.contains x y = true
      · obtain ⟨sw', heq, hinv', hdata', hmul'⟩ := hrec sw x y i isw h3
        refine ⟨nw, ne, sw', se, ?_, ?_, ?_⟩
        · simp only [insertToChildWith, h1, h2, h3, if_true, if_false, Bool.false_eq_true, heq]
        · exact ⟨hv, hcap, hmax, hdep, hdepM, hnw, hne, hdata' ▸ hsw, hse, inw, ine, hinv', ise⟩
        · rw [hmul']
          simp only [Multiset.cons_add, Multiset.add_cons]
      · by_cases h4 : se.data.contains x y = true
        · obtain ⟨se', heq, hinv', hdata', hmul'⟩ := hrec se x y i ise h4
          refine ⟨nw, ne, sw, se', ?_, ?_, ?_⟩
          · simp only [insertToChildWith, h1, h2, h3, h4, if_true, if_false, Bool.false_eq_true, heq]
          · exact ⟨hv, hcap, hmax, hdep, hdepM, hnw, hne, hsw, hdata' ▸ hse, inw, ine, isw, hinv'⟩
          · rw [hmul']
            simp only [Multiset.cons_add, Multiset.add_cons]
        · exfalso
          rcases cover_children d x y hc with h | h | h | h
          · exact h1 (by rw [hnw]; exact h)
          · exact h2 (by rw [hne]; exact h)
          · exact h3 (by rw [hsw]; exact h)
          · exact h4 (by rw [hse]; exact h)

/-- Redistribution: folding `_insert_to_child` over a list of points all
contained in the parent's region keeps the node's shape and point list,
preserves the invariant parts, and adds exactly the redistributed points
to the children's multisets. -/
theorem redistribute_ok (C M dep : Nat)
    (rec : QNode → ℚ → ℚ → Nat → QNode × Bool)
    (hrec : RecSpec C M (dep + 1) rec) (d : NodeData) :
    ∀ (toIns : List Pt) (pts : List Pt) (nw ne sw se : QNode),
      InnerParts C M dep d nw ne sw se →
      (∀ p ∈ toIns, d.contains p.x p.y = true) →
      ∃ nw' ne' sw' se',
        toIns.foldl (fun acc p => (insertToChildWith rec acc p.x p.y p.idx).1)
          (QNode.inner d pts nw ne sw se) = QNode.inner d pts nw' ne' sw' se' ∧
        InnerParts C M dep d nw' ne' sw' se' ∧
        nw'.toMul + ne'.toMul + sw'.toMul + se'.toMul =
          (toIns : Multiset Pt) + (nw.toMul + ne.toMul + sw.toMul + se.toMul) := by
  intro toIns
  induction toIns with
  | nil =>
    intro pts nw ne sw se hp _
    exact ⟨nw, ne, sw, se, rfl, hp, by simp⟩
  | cons p rest ih =>
    intro pts nw ne sw se hp hin
    obtain ⟨nw1, ne1, sw1, se1, heq1, hp1, hmul1⟩ :=
      insertToChildWith_ok C M dep rec hrec d pts nw ne sw se hp p.x p.y p.idx
        (hin p (List.mem_cons_self p rest))
    obtain ⟨nw2, ne2, sw2, se2, heq2, hp2, hmul2⟩ :=
      ih pts nw1 ne1 sw1 se1 hp1 (fun q hq => hin q (List.mem_cons_of_mem p hq))
    refine ⟨nw2, ne2, sw2, se2, ?_, hp2, ?_⟩
    · rw [List.foldl_cons, heq1]
      exact heq2
    · rw [hmul2, hmul1]
      rw [← Multiset.cons_coe, Multiset.cons_add, Multiset.add_cons]

/-- `subdivide` on an undivided node strictly below the maximum depth:
either it refuses (all points coincident) and returns the node
unchanged, or it produces a divided node with an empty local point
list, invariant-satisfying midpoint children, and the same stored
points, now distributed among the children. -/
theorem subdivideWith_ok (C M dep : Nat)
    (rec : QNode → ℚ → ℚ → Nat → QNode × Bool)
    (hrec : RecSpec C M (dep + 1) rec)
    (d : NodeData) (pts : List Pt)
    (hinv : QInv C M dep (QNode.leaf d pts)) (hdepM : dep < M) :
    subdivideWith rec (QNode.leaf d pts) = QNode.leaf d pts ∨
    ∃ nw' ne' sw' se',
      subdivideWith rec (QNode.leaf d pts) = QNode.inner d [] nw' ne' sw' se' ∧
      InnerParts C M dep d nw' ne' sw' se' ∧
      nw'.toMul + ne'.toMul + sw'.toMul + se'.toMul = (pts : Multiset Pt) := by
  cases hinv with
  | leaf d pts dep hv hcap hmax hdep hpts =>
  have hnd : ¬ (d.max_depth ≤ d.depth) := by omega
  by_cases hsame : (decide (1 < pts.length) && allSamePoints pts) = true
  · left
    simp only [subdivideWith, hnd, if_false, hsame, if_true]
  · right
    obtain ⟨vnw, vne, vsw, vse⟩ := childData_valid d hv
    have hparts : InnerParts C M dep d
        (QNode.leaf (nwData d) []) (QNode.leaf (neData d) [])
        (QNode.leaf (swData d) []) (QNode.leaf (seData d) []) := by
      refine ⟨hv, hcap, hmax, hdep, hdepM, rfl, rfl, rfl, rfl, ?_, ?_, ?_, ?_⟩ <;>
        (apply QInv.leaf <;> first
          | assumption
          | (intro p hp; exact absurd hp (List.not_mem_nil p))
          | simp [nwData, neData, swData, seData, hcap, hmax, hdep])
    obtain ⟨nw', ne', sw', se', heq, hp', hmul⟩ :=
      redistribute_ok C M dep rec hrec d pts pts
        (QNode.leaf (nwData d) []) (QNode.leaf (neData d) [])
        (QNode.leaf (swData d) []) (QNode.leaf (seData d) []) hparts hpts
    refine ⟨nw', ne', sw', se', ?_, hp', ?_⟩
    · simp only [subdivideWith, hnd, if_false, hsame, Bool.false_eq_true, heq,
        QNode.clearPoints]
    · rw [hmul]
      simp [toMul_leaf]

/-- Main insertion theorem: on any invariant-satisfying node whose
region contains the point, `insert` with sufficient fuel succeeds,
preserves the invariant and the node's bounds/configuration, and adds
exactly the new point to the subtree's stored multiset. -/
theorem insertFuel_ok :
    ∀ (fuel C M dep : Nat) (n : QNode) (x y : ℚ) (i : Nat),
      QInv C M dep n → dep ≤ M → M + 1 - dep ≤ fuel →
      n.data.contains x y = true →
      ∃ n', insertFuel fuel n x y i = (n', true) ∧ QInv C M dep n' ∧
        n'.data = n.data ∧ n'.toMul = (⟨x, y, i⟩ : Pt) ::ₘ n.toMul := by
  intro fuel
  induction fuel with
  | zero =>
    intro C M dep n x y i _ hdepM hfuel _
    omega
  | succ fuel ih =>
    intro C M dep n x y i hinv hdepM hfuel hc
    cases hinv with
    | leaf d pts dep hv hcap hmax hdep hpts =>
      have hc' : d.contains x y = true := hc
      have happend : ∀ p ∈ pts ++ [(⟨x, y, i⟩ : Pt)], d.contains p.x p.y = true := by
        intro p hp
        rcases List.mem_append.mp hp with hp | hp
        · exact hpts p hp
        · rw [List.mem_singleton.mp hp]
          exact hc'
      by_cases hlen : pts.length < d.capacity
      · refine ⟨QNode.leaf d (pts ++ [⟨x, y, i⟩]), ?_, ?_, rfl, ?_⟩
        · simp only [insertFuel, QNode.data, hc', Bool.true_eq_false, if_false, hlen,
            if_true]
        · exact QInv.leaf d _ dep hv hcap hmax hdep happend
        · rw [toMul_leaf, toMul_leaf, coe_append_singleton]
      · by_cases hmd : d.max_depth ≤ d.depth
        · refine ⟨QNode.leaf d (pts ++ [⟨x, y, i⟩]), ?_, ?_, rfl, ?_⟩
          · simp only [insertFuel, QNode.data, hc', Bool.true_eq_false, if_false, hlen,
              hmd, if_true]
          · exact QInv.leaf d _ dep hv hcap hmax hdep happend
          · rw [toMul_leaf, toMul_leaf, coe_append_singleton]
        · have hdepM' : dep < M := by omega
          have hrec : RecSpec C M (dep + 1) (insertFuel fuel) := by
            intro m x2 y2 i2 hi hcon
            exact ih C M (dep + 1) m x2 y2 i2 hi (by omega) (by omega) hcon
          rcases subdivideWith_ok C M dep (insertFuel fuel) hrec d pts
              (QInv.leaf d pts dep hv hcap hmax hdep hpts) hdepM' with
            hsub | ⟨nw', ne', sw', se', heq, hparts, hmul⟩
          · refine ⟨QNode.leaf d (pts ++ [⟨x, y, i⟩]), ?_, ?_, rfl, ?_⟩
            · simp only [insertFuel, QNode.data, hc', Bool.true_eq_false, if_false,
                hlen, hmd, hsub]
            · exact QInv.leaf d _ dep hv hcap hmax hdep happend
            · rw [toMul_leaf, toMul_leaf, coe_append_singleton]
          · obtain ⟨nw2, ne2, sw2, se2, heq2, hparts2, hmul2⟩ :=
              insertToChildWith_ok C M dep (insertFuel fuel) hrec d [] nw' ne' sw' se'
                hparts x y i hc'
            refine ⟨QNode.inner d [] nw2 ne2 sw2 se2, ?_, ?_, rfl, ?_⟩
            · simp only [insertFuel, QNode.data, hc', Bool.true_eq_false, if_false,
                hlen, hmd, heq, heq2]
            · exact inv_of_innerParts C M dep d nw2 ne2 sw2 se2 hparts2
            · rw [toMul_inner, toMul_leaf]
              simp only [Multiset.coe_nil, zero_add]
              rw [hmul2, hmul]
    | inner d dep nw ne sw se hv hcap hmax hdep hdepM2 hnw hne hsw hse inw ine isw ise =>
      have hc' : d.contains x y = true := hc
      have hrec : RecSpec C M (dep + 1) (insertFuel fuel) := by
        intro m x2 y2 i2 hi hcon
        exact ih C M (dep + 1) m x2 y2 i2 hi (by omega) (by omega) hcon
      obtain ⟨nw2, ne2, sw2, se2, heq2, hparts2, hmul2⟩ :=
        insertToChildWith_ok C M dep (insertFuel fuel) hrec d [] nw ne sw se
          ⟨hv, hcap, hmax, hdep, hdepM2, hnw, hne, hsw, hse, inw, ine, isw, ise⟩ x y i hc'
      refine ⟨QNode.inner d [] nw2 ne2 sw2 se2, ?_, ?_, rfl, ?_⟩
      · simp only [insertFuel, QNode.data, hc', Bool.true_eq_false, if_false, heq2]
      · exact inv_of_innerParts C M dep d nw2 ne2 sw2 se2 hparts2
      · rw [toMul_inner, toMul_inner]
        simp only [Multiset.coe_nil, zero_add]
        rw [hmul2]

/-- `_insert_to_child` depends on the recursive insert only through its
values on invariant-satisfying children. -/
theorem insertToChildWith_congr (C M dep : Nat)
    (rec1 rec2 : QNode → ℚ → ℚ → Nat → QNode × Bool)
    (h12 : ∀ m x y i, QInv C M (dep + 1) m → rec1 m x y i = rec2 m x y i)
    (d : NodeData) (pts : List Pt) (nw ne sw se : QNode)
    (hp : InnerParts C M dep d nw ne sw se) (x y : ℚ) (i : Nat) :
    insertToChildWith rec1 (QNode.inner d pts nw ne sw se) x y i =
      insertToChildWith rec2 (QNode.inner d pts nw ne sw se) x y i := by
  obtain ⟨hv, hcap, hmax, hdep, hdepM, hnw, hne, hsw, hse, inw, ine, isw, ise⟩ := hp
  by_cases h1 : nw.data.contains x y = true
  · simp only [insertToChildWith, h1, if_true, h12 nw x y i inw]
  · by_cases h2 : ne.data.contains x y = true
    · simp only [insertToChildWith, h1, h2, if_true, if_false, Bool.false_eq_true,
        h12 ne x y i ine]
    · by_cases h3 : sw.data.contains x y = true
      · simp only [insertToChildWith, h1, h2, h3, if_true, if_false, Bool.false_eq_true,
          h12 sw x y i isw]
      · by_cases h4 : se.data.contains x y = true
        · simp only [insertToChildWith, h1, h2, h3, h4, if_true, if_false,
            Bool.false_eq_true, h12 se x y i ise]
        · simp only [insertToChildWith, h1, h2, h3, h4, Bool.false_eq_true, if_false]

/-- Redistribution depends on the recursive insert only through its
values on invariant-satisfying children. -/
theorem redistribute_congr (C M dep : Nat)
    (rec1 rec2 : QNode → ℚ → ℚ → Nat → QNode × Bool)
    (hrec1 : RecSpec C M (dep + 1) rec1)
    (h12 : ∀ m x y i, QInv C M (dep + 1) m → rec1 m x y i = rec2 m x y i)
    (d : NodeData) :
    ∀ (toIns : List Pt) (pts : List Pt) (nw ne sw se : QNode),
      InnerParts C M dep d nw ne sw se →
      (∀ p ∈ toIns, d.contains p.x p.y = true) →
      toIns.foldl (fun acc p => (insertToChildWith rec1 acc p.x p.y p.idx).1)
          (QNode.inner d pts nw ne sw se) =
        toIns.foldl (fun acc p => (insertToChildWith rec2 acc p.x p.y p.idx).1)
          (QNode.inner d pts nw ne sw se) := by
  intro toIns
  induction toIns with
  | nil => intro pts nw ne sw se _ _; rfl
  | cons p rest ih =>
    intro pts nw ne sw se hp hin
    obtain ⟨nw1, ne1, sw1, se1, heq1, hp1, _⟩ :=
      insertToChildWith_ok C M dep rec1 hrec1 d pts nw ne sw se hp p.x p.y p.idx
        (hin p (List.mem_cons_self p rest))
    have heq1' : insertToChildWith rec2 (QNode.inner d pts nw ne sw se) p.x p.y p.idx =
        (QNode.inner d pts nw1 ne1 sw1 se1, true) := by
      rw [← insertToChildWith_congr C M dep rec1 rec2 h12 d pts nw ne sw se hp p.x p.y p.idx]
      exact heq1
    rw [List.foldl_cons, List.foldl_cons, heq1, heq1']
    exact ih pts nw1 ne1 sw1 se1 hp1 (fun q hq => hin q (List.mem_cons_of_mem p hq))

/-- `subdivide` depends on the recursive insert only through its values
on invariant-satisfying children. -/
theorem subdivideWith_congr (C M dep : Nat)
    (rec1 rec2 : QNode → ℚ → ℚ → Nat → QNode × Bool)
    (hrec1 : RecSpec C M (dep + 1) rec1)
    (h12 : ∀ m x y i, QInv C M (dep + 1) m → rec1 m x y i = rec2 m x y i)
    (d : NodeData) (pts : List Pt)
    (hinv : QInv C M dep (QNode.leaf d pts)) (hdepM : dep < M) :
    subdivideWith rec1 (QNode.leaf d pts) = subdivideWith rec2 (QNode.leaf d pts) := by
  cases hinv with
  | leaf d pts dep hv hcap hmax hdep hpts =>
  have hnd : ¬ (d.max_depth ≤ d.depth) := by omega
  by_cases hsame : (decide (1 < pts.length) && allSamePoints pts) = true
  · simp only [subdivideWith, hnd, if_false, hsame, if_true]
  · obtain ⟨vnw, vne, vsw, vse⟩ := childData_valid d hv
    have hparts : InnerParts C M dep d
        (QNode.leaf (nwData d) []) (QNode.leaf (neData d) [])
        (QNode.leaf (swData d) []) (QNode.leaf (seData d) []) := by
      refine ⟨hv, hcap, hmax, hdep, hdepM, rfl, rfl, rfl, rfl, ?_, ?_, ?_, ?_⟩ <;>
        (apply QInv.leaf <;> first
          | assumption
          | (intro p hp; exact absurd hp (List.not_mem_nil p))
          | simp [nwData, neData, swData, seData, hcap, hmax, hdep])
    simp only [subdivideWith, hnd, if_false, hsame, Bool.false_eq_true]
    rw [redistribute_congr C M dep rec1 rec2 hrec1 h12 d pts pts
      (QNode.leaf (nwData d) []) (QNode.leaf (neData d) [])
      (QNode.leaf (swData d) []) (QNode.leaf (seData d) []) hparts hpts]

/-- One-step unfolding of `insert` at a positive fuel, keeping the
recursive occurrences folded. -/
theorem insertFuel_unfold (fuel : Nat) (n : QNode) (x y : ℚ) (i : Nat) :
    insertFuel (fuel + 1) n x y i =
      (if n.data.contains x y = false then (n, false)
       else
         match n with
         | QNode.leaf d pts =>
           if pts.length < d.capacity then
             (QNode.leaf d (pts ++ [⟨x, y, i⟩]), true)
           else if d.max_depth ≤ d.depth then
             (QNode.leaf d (pts ++ [⟨x, y, i⟩]), true)
           else
             match subdivideWith (insertFuel fuel) (QNode.leaf d pts) with
             | QNode.leaf d2 pts2 => (QNode.leaf d2 (pts2 ++ [⟨x, y, i⟩]), true)
             | QNode.inner d2 pts2 nw ne sw se =>
               insertToChildWith (insertFuel fuel)
                 (QNode.inner d2 pts2 nw ne sw se) x y i
         | QNode.inner d pts nw ne sw se =>
           insertToChildWith (insertFuel fuel)
             (QNode.inner d pts nw ne sw se) x y i) := rfl

/-- Successor fuel stability: once the fuel reaches
`max_depth + 1 - depth`, one more unit of fuel does not change the
result of `insert`. -/
theorem insertFuel_succ_stable :
    ∀ (fuel C M dep : Nat) (n : QNode) (x y : ℚ) (i : Nat),
      QInv C M dep n → dep ≤ M → M + 1 - dep ≤ fuel →
      insertFuel fuel n x y i = insertFuel (fuel + 1) n x y i := by
  intro fuel
  induction fuel with
  | zero =>
    intro C M dep n x y i _ hdepM hfuel
    omega
  | succ fuel ih =>
    intro C M dep n x y i hinv hdepM hfuel
    rw [insertFuel_unfold fuel, insertFuel_unfold (fuel + 1)]
    by_cases hc : n.data.contains x y = true
    · rw [hc]
      simp only [Bool.true_eq_false, if_false]
      cases hinv with
      | leaf d pts dep hv hcap hmax hdep hpts =>
        by_cases hlen : pts.length < d.capacity
        · simp only [hlen, if_true]
        · by_cases hmd : d.max_depth ≤ d.depth
          · simp only [hlen, hmd, if_false, if_true]
          · have hdepM' : dep < M := by omega
            have hc' : d.contains x y = true := hc
            have hrec : RecSpec C M (dep + 1) (insertFuel fuel) := by
              intro m x2 y2 i2 hi hcon
              exact insertFuel_ok fuel C M (dep + 1) m x2 y2 i2 hi (by omega)
                (by omega) hcon
            have h12 : ∀ m x2 y2 i2, QInv C M (dep + 1) m →
                insertFuel fuel m x2 y2 i2 = insertFuel (fuel + 1) m x2 y2 i2 := by
              intro m x2 y2 i2 hi
              exact ih C M (dep + 1) m x2 y2 i2 hi (by omega) (by omega)
            have hsubeq : subdivideWith (insertFuel fuel) (QNode.leaf d pts) =
                subdivideWith (insertFuel (fuel + 1)) (QNode.leaf d pts) :=
              subdivideWith_congr C M dep (insertFuel fuel) (insertFuel (fuel + 1))
                hrec h12 d pts (QInv.leaf d pts dep hv hcap hmax hdep hpts) hdepM'
            simp only [hlen, hmd, if_false, ← hsubeq]
            rcases subdivideWith_ok C M dep (insertFuel fuel) hrec d pts
                (QInv.leaf d pts dep hv hcap hmax hdep hpts) hdepM' with
              hsub | ⟨nw', ne', sw', se', heq, hparts, _⟩
            · rw [hsub]
            · rw [heq]
              exact insertToChildWith_congr C M dep (insertFuel fuel)
                (insertFuel (fuel + 1)) h12 d [] nw' ne' sw' se' hparts x y i
      | inner d dep nw ne sw se hv hcap hmax hdep hdepM2 hnw hne hsw hse inw ine isw ise =>
        have h12 : ∀ m x2 y2 i2, QInv C M (dep + 1) m →
            insertFuel fuel m x2 y2 i2 = insertFuel (fuel + 1) m x2 y2 i2 := by
          intro m x2 y2 i2 hi
          exact ih C M (dep + 1) m x2 y2 i2 hi (by omega) (by omega)
        exact insertToChildWith_congr C M dep (insertFuel fuel) (insertFuel (fuel + 1))
          h12 d [] nw ne sw se
          ⟨hv, hcap, hmax, hdep, hdepM2, hnw, hne, hsw, hse, inw, ine, isw, ise⟩ x y i
    · have hc' : n.data.contains x y = false := by
        cases hcon : n.data.contains x y with
        | false => rfl
        | true => exact absurd hcon hc
      rw [hc']
      simp only [if_true]

/-- Full fuel stability: any two sufficient fuels give the same result. -/
theorem insertFuel_stable (C M dep : Nat) (n : QNode) (x y : ℚ) (i : Nat)
    (hinv : QInv C M dep n) (hdepM : dep ≤ M) (f1 f2 : Nat)
    (h1 : M + 1 - dep ≤ f1) (h2 : M + 1 - dep ≤ f2) :
    insertFuel f1 n x y i = insertFuel f2 n x y i := by
  have key : ∀ (b k : Nat), M + 1 - dep ≤ b →
      insertFuel b n x y i = insertFuel (b + k) n x y i := by
    intro b k hb
    induction k with
    | zero => rfl
    | succ k ihk =>
      rw [ihk, show b + (k + 1) = (b + k) + 1 from rfl]
      exact insertFuel_succ_stable (b + k) C M dep n x y i hinv hdepM (by omega)
  rcases le_total f1 f2 with h | h
  · rw [key f1 (f2 - f1) h1, show f1 + (f2 - f1) = f2 by omega]
  · rw [key f2 (f1 - f2) h2, show f2 + (f1 - f2) = f1 by omega]

/-- An `insert` whose point lies outside the node's region fails and
leaves the node untouched, at any fuel. -/
theorem insert_out_of_bounds (fuel : Nat) (n : QNode) (x y : ℚ) (i : Nat)
    (h : n.data.contains x y = false) : insertFuel fuel n x y i = (n, false) := by
  cases fuel with
  | zero => rfl
  | succ fuel => rw [insertFuel_unfold, h, if_pos rfl]

/-- Depth bound: under the invariant, the recursive depth count is at
most `max_depth + 1 - depth`. -/
theorem getDepthRec_bound (C M dep : Nat) (n : QNode) (h : QInv C M dep n)
    (hdepM : dep ≤ M) : n.getDepthRec ≤ M + 1 - dep := by
  induction h with
  | leaf d pts dep hv hcap hmax hdep hpts =>
    simp only [QNode.getDepthRec]
    omega
  | inner d dep nw ne sw se hv hcap hmax hdep hdepM2 hnw hne hsw hse inw ine isw ise ih1 ih2 ih3 ih4 =>
    simp only [QNode.getDepthRec]
    have b1 := ih1 (by omega)
    have b2 := ih2 (by omega)
    have b3 := ih3 (by omega)
    have b4 := ih4 (by omega)
    have hb : max (max nw.getDepthRec ne.getDepthRec)
        (max sw.getDepthRec se.getDepthRec) ≤ M - dep := by
      refine max_le (max_le ?_ ?_) (max_le ?_ ?_) <;> omega
    omega

/-- The invariant implies the leaf-or-internal shape property at every
node of the tree. -/
theorem nodeOK_of_inv (C M dep : Nat) (n : QNode) (h : QInv C M dep n) :
    NodeOK n := by
  induction h with
  | leaf d pts dep hv hcap hmax hdep hpts => trivial
  | inner d dep nw ne sw se hv hcap hmax hdep hdepM2 hnw hne hsw hse inw ine isw ise ih1 ih2 ih3 ih4 =>
    obtain ⟨p1, p2, p3, p4, p5, p6⟩ := pairBoundary_all d
    exact ⟨rfl, hnw, hne, hsw, hse, cover_children_iff d, p1, p2, p3, p4, p5, p6,
      ih1, ih2, ih3, ih4⟩

/-- A point inside a node's box but outside a query rectangle that
misses the whole box cannot be in the rectangle. -/
theorem not_inRange_of_no_intersect (d : NodeData) (p : Pt) (a b c e : ℚ)
    (hcont : d.contains p.x p.y = true)
    (hint : d.intersects a b c e = false) : inRange a b c e p = false := by
  rw [contains_iff] at hcont
  obtain ⟨h1, h2, h3, h4⟩ := hcont
  have hint' : ¬ (d.intersects a b c e = true) := by simp [hint]
  rw [intersects_iff] at hint'
  push_neg at hint'
  cases hr : inRange a b c e p with
  | false => rfl
  | true =>
    exfalso
    rw [inRange_iff] at hr
    obtain ⟨r1, r2, r3, r4⟩ := hr
    have c1 : d.x_min ≤ b := le_trans h1 r2
    have c2 : a ≤ d.x_max := le_trans r1 h2
    have c3 : d.y_min ≤ e := le_trans h3 r4
    have c4 : c ≤ d.y_max := le_trans r3 h4
    have := hint' c1 c2 c3
    linarith

/-- `query_range` returns exactly the identifiers of the stored points
lying inside the query rectangle (as a multiset: pruning loses nothing,
and nothing is double-counted). -/
theorem query_eq_filter (C M dep : Nat) (n : QNode) (h : QInv C M dep n)
    (a b c e : ℚ) :
    ((n.query_range a b c e : List Nat) : Multiset Nat) =
      Multiset.map Pt.idx
        (Multiset.filter (fun p => inRange a b c e p = true) n.toMul) := by
  induction h with
  | leaf d pts dep hv hcap hmax hdep hpts =>
    by_cases hint : d.intersects a b c e = true
    · simp only [QNode.query_range, hint, Bool.true_eq_false, if_false, toMul_leaf]
      rw [Multiset.filter_coe, Multiset.map_coe]
      have hfn : (fun q => decide (inRange a b c e q = true)) = inRange a b c e := by
        funext q
        cases inRange a b c e q <;> simp
      rw [hfn]
    · have hint' : d.intersects a b c e = false := by
        cases hcon : d.intersects a b c e with
        | false => rfl
        | true => exact absurd hcon hint
      simp only [QNode.query_range, hint', if_pos rfl, toMul_leaf]
      have hfil : Multiset.filter (fun p => inRange a b c e p = true)
          (pts : Multiset Pt) = 0 := by
        rw [Multiset.filter_eq_nil]
        intro p hp
        have := not_inRange_of_no_intersect d p a b c e
          (hpts p (by simpa using hp)) hint'
        simp [this]
      rw [hfil]
      simp
  | inner d dep nw ne sw se hv hcap hmax hdep hdepM2 hnw hne hsw hse inw ine isw ise ih1 ih2 ih3 ih4 =>
    by_cases hint : d.intersects a b c e = true
    · simp only [QNode.query_range, hint, Bool.true_eq_false, if_false, toMul_inner]
      simp only [Multiset.filter_add, Multiset.map_add]
      rw [← ih1, ← ih2, ← ih3, ← ih4]
      simp
    · have hint' : d.intersects a b c e = false := by
        cases hcon : d.intersects a b c e with
        | false => rfl
        | true => exact absurd hcon hint
      simp only [QNode.query_range, hint', if_pos rfl]
      have hall := toMul_contains C M dep (QNode.inner d [] nw ne sw se)
        (QInv.inner d dep nw ne sw se hv hcap hmax hdep hdepM2 hnw hne hsw hse
          inw ine isw ise)
      have hfil : Multiset.filter (fun p => inRange a b c e p = true)
          (QNode.inner d [] nw ne sw se).toMul = 0 := by
        rw [Multiset.filter_eq_nil]
        intro p hp
        have := not_inRange_of_no_intersect d p a b c e (hall p hp) hint'
        simp [this]
      rw [hfil]
      simp

/-! ## Bounds computation in `build` -/

/-- A left fold of `min` is below its initial value. -/
theorem foldl_min_le_init (l : List ℚ) : ∀ a : ℚ, l.foldl min a ≤ a := by
  induction l with
  | nil => intro a; exact le_refl a
  | cons b t ih => intro a; exact le_trans (ih (min a b)) (min_le_left a b)

/-- A left fold of `min` is below every list element. -/
theorem foldl_min_le_mem (l : List ℚ) : ∀ (a x : ℚ), x ∈ l → l.foldl min a ≤ x := by
  induction l with
  | nil => intro a x hx; exact absurd hx (List.not_mem_nil x)
  | cons b t ih =>
    intro a x hx
    rcases List.mem_cons.mp hx with hx | hx
    · rw [hx]
      exact le_trans (foldl_min_le_init t (min a b)) (min_le_right a b)
    · exact ih (min a b) x hx

/-- A left fold of `min` is attained at the initial value or an element. -/
theorem foldl_min_attained (l : List ℚ) : ∀ a : ℚ,
    l.foldl min a = a ∨ l.foldl min a ∈ l := by
  induction l with
  | nil => intro a; exact Or.inl rfl
  | cons b t ih =>
    intro a
    rcases ih (min a b) with h | h
    · rcases min_choice a b with hm | hm
      · exact Or.inl (by rw [List.foldl_cons, h, hm])
      · exact Or.inr (by rw [List.foldl_cons, h, hm]; exact List.mem_cons_self b t)
    · exact Or.inr (List.mem_cons_of_mem b h)

/-- A left fold of `max` is above its initial value. -/
theorem foldl_max_ge_init (l : List ℚ) : ∀ a : ℚ, a ≤ l.foldl max a := by
  induction l with
  | nil => intro a; exact le_refl a
  | cons b t ih => intro a; exact le_trans (le_max_left a b) (ih (max a b))

/-- A left fold of `max` is above every list element. -/
theorem foldl_max_ge_mem (l : List ℚ) : ∀ (a x : ℚ), x ∈ l → x ≤ l.foldl max a := by
  induction l with
  | nil => intro a x hx; exact absurd hx (List.not_mem_nil x)
  | cons b t ih =>
    intro a x hx
    rcases List.mem_cons.mp hx with hx | hx
    · rw [hx]
      exact le_trans (le_max_right a b) (foldl_max_ge_init t (max a b))
    · exact ih (max a b) x hx

/-- A left fold of `max` is attained at the initial value or an element. -/
theorem foldl_max_attained (l : List ℚ) : ∀ a : ℚ,
    l.foldl max a = a ∨ l.foldl max a ∈ l := by
  induction l with
  | nil => intro a; exact Or.inl rfl
  | cons b t ih =>
    intro a
    rcases ih (max a b) with h | h
    · rcases max_choice a b with hm | hm
      · exact Or.inl (by rw [List.foldl_cons, h, hm])
      · exact Or.inr (by rw [List.foldl_cons, h, hm]; exact List.mem_cons_self b t)
    · exact Or.inr (List.mem_cons_of_mem b h)

/-! ## The labelled insertion list -/

/-- `labelPts` keeps the input length. -/
theorem labelPts_length (qs : List (ℚ × ℚ)) : ∀ i : Nat,
    (labelPts qs i).length = qs.length := by
  induction qs with
  | nil => intro i; rfl
  | cons q qs ih => intro i; simp [labelPts, ih (i + 1)]

/-- Membership in `labelPts`: exactly the input points, labelled with
their offset position. -/
theorem labelPts_mem (qs : List (ℚ × ℚ)) : ∀ (i : Nat) (p : Pt),
    p ∈ labelPts qs i ↔
      ∃ j, ∃ hj : j < qs.length,
        p = ⟨(qs.get ⟨j, hj⟩).1, (qs.get ⟨j, hj⟩).2, i + j⟩ := by
  induction qs with
  | nil =>
    intro i p
    simp [labelPts]
  | cons q qs ih =>
    intro i p
    simp only [labelPts, List.mem_cons, ih (i + 1)]
    constructor
    · rintro (hp | ⟨j, hj, hp⟩)
      · exact ⟨0, by simp, by simpa using hp⟩
      · refine ⟨j + 1, by simpa using hj, ?_⟩
        rw [hp]
        have : i + 1 + j = i + (j + 1) := by omega
        simp [List.get, this]
    · rintro ⟨j, hj, hp⟩
      cases j with
      | zero => exact Or.inl (by simpa using hp)
      | succ j =>
        refine Or.inr ⟨j, by simpa using hj, ?_⟩
        rw [hp]
        have : i + 1 + j = i + (j + 1) := by omega
        simp [List.get, this]

/-- The identifiers of `labelPts` are consecutive. -/
theorem labelPts_map_idx (qs : List (ℚ × ℚ)) : ∀ i : Nat,
    (labelPts qs i).map Pt.idx = List.range' i qs.length := by
  induction qs with
  | nil => intro i; rfl
  | cons q qs ih =>
    intro i
    simp [labelPts, List.range', ih (i + 1)]

/-! ## `Quadtree.build` -/

/-- The insertion loop of `build`: starting from an invariant-satisfying
node whose region contains every point to insert, every insert succeeds
and the loop adds exactly the labelled points. -/
theorem buildLoop_ok (C M : Nat) :
    ∀ (qs : List (ℚ × ℚ)) (n : QNode) (i : Nat),
      QInv C M 0 n →
      (∀ q ∈ qs, n.data.contains q.1 q.2 = true) →
      ∃ n', buildLoop (M + 1) n qs i = (n', true) ∧ QInv C M 0 n' ∧
        n'.data = n.data ∧
        n'.toMul = (labelPts qs i : Multiset Pt) + n.toMul := by
  intro qs
  induction qs with
  | nil =>
    intro n i hinv _
    exact ⟨n, rfl, hinv, rfl, by simp [labelPts]⟩
  | cons q qs ih =>
    intro n i hinv hq
    obtain ⟨n1, heq1, hinv1, hdata1, hmul1⟩ :=
      insertFuel_ok (M + 1) C M 0 n q.1 q.2 i hinv (by omega) (by omega)
        (hq q (List.mem_cons_self q qs))
    obtain ⟨n2, heq2, hinv2, hdata2, hmul2⟩ :=
      ih n1 (i + 1) hinv1 (by
        intro q2 hq2
        rw [hdata1]
        exact hq q2 (List.mem_cons_of_mem q hq2))
    refine ⟨n2, ?_, hinv2, by rw [hdata2, hdata1], ?_⟩
    · simp only [buildLoop, heq1, heq2, Bool.true_and]
    · rw [hmul2, hmul1]
      simp only [labelPts]
      rw [← Multiset.cons_coe, Multiset.cons_add, Multiset.add_cons]

/-- Master theorem for `Quadtree.build` on a non-empty input: the root
exists and satisfies the invariant, stores exactly the labelled input
points, its region is the minimal enclosing box padded by 1% of each
extent and contains every input point, every insert of the loop
returned `True`, and `size` is the input length. -/
theorem build_ok (C M : Nat) (pts : List (ℚ × ℚ)) (hne : pts ≠ []) :
    ∃ r, (Quadtree.build C M pts).root = some r ∧ QInv C M 0 r ∧
      r.toMul = (labelPts pts 0 : Multiset Pt) ∧
      (∀ q ∈ pts, r.data.contains q.1 q.2 = true) ∧
      buildOk C M pts = true ∧
      (Quadtree.build C M pts).size = pts.length ∧
      ∃ xlo xhi ylo yhi : ℚ,
        IsLeast {z : ℚ | z ∈ pts.map Prod.fst} xlo ∧
        IsGreatest {z : ℚ | z ∈ pts.map Prod.fst} xhi ∧
        IsLeast {z : ℚ | z ∈ pts.map Prod.snd} ylo ∧
        IsGreatest {z : ℚ | z ∈ pts.map Prod.snd} yhi ∧
        r.data = ⟨xlo - (xhi - xlo) * (1 / 100), xhi + (xhi - xlo) * (1 / 100),
          ylo - (yhi - ylo) * (1 / 100), yhi + (yhi - ylo) * (1 / 100), C, 0, M⟩ := by
  cases pts with
  | nil => exact absurd rfl hne
  | cons p rest =>
  clear hne
  set xlo := (rest.map Prod.fst).foldl min p.1 with hxlo_def
  set xhi := (rest.map Prod.fst).foldl max p.1 with hxhi_def
  set ylo := (rest.map Prod.snd).foldl min p.2 with hylo_def
  set yhi := (rest.map Prod.snd).foldl max p.2 with hyhi_def
  have hxlo_le : ∀ q ∈ p :: rest, xlo ≤ q.1 := by
    intro q hq
    rcases List.mem_cons.mp hq with hq | hq
    · rw [hq]; exact foldl_min_le_init _ _
    · exact foldl_min_le_mem _ _ _ (List.mem_map_of_mem Prod.fst hq)
  have hxhi_ge : ∀ q ∈ p :: rest, q.1 ≤ xhi := by
    intro q hq
    rcases List.mem_cons.mp hq with hq | hq
    · rw [hq]; exact foldl_max_ge_init _ _
    · exact foldl_max_ge_mem _ _ _ (List.mem_map_of_mem Prod.fst hq)
  have hylo_le : ∀ q ∈ p :: rest, ylo ≤ q.2 := by
    intro q hq
    rcases List.mem_cons.mp hq with hq | hq
    · rw [hq]; exact foldl_min_le_init _ _
    · exact foldl_min_le_mem _ _ _ (List.mem_map_of_mem Prod.snd hq)
  have hyhi_ge : ∀ q ∈ p :: rest, q.2 ≤ yhi := by
    intro q hq
    rcases List.mem_cons.mp hq with hq | hq
    · rw [hq]; exact foldl_max_ge_init _ _
    · exact foldl_max_ge_mem _ _ _ (List.mem_map_of_mem Prod.snd hq)
  have hxord : xlo ≤ xhi := le_trans (hxlo_le p (List.mem_cons_self p rest))
    (hxhi_ge p (List.mem_cons_self p rest))
  have hyord : ylo ≤ yhi := le_trans (hylo_le p (List.mem_cons_self p rest))
    (hyhi_ge p (List.mem_cons_self p rest))
  have hxpad : 0 ≤ (xhi - xlo) * (1 / 100) := by nlinarith
  have hypad : 0 ≤ (yhi - ylo) * (1 / 100) := by nlinarith
  set d0 : NodeData :=
    ⟨xlo - (xhi - xlo) * (1 / 100), xhi + (xhi - xlo) * (1 / 100),
      ylo - (yhi - ylo) * (1 / 100), yhi + (yhi - ylo) * (1 / 100), C, 0, M⟩
    with hd0_def
  have hvalid : boxValid d0 := by
    constructor <;> (simp only [hd0_def]; linarith)
  have hcont : ∀ q ∈ p :: rest, d0.contains q.1 q.2 = true := by
    intro q hq
    rw [contains_iff]
    have h1 := hxlo_le q hq
    have h2 := hxhi_ge q hq
    have h3 := hylo_le q hq
    have h4 := hyhi_ge q hq
    simp only [hd0_def]
    refine ⟨by linarith, by linarith, by linarith, by linarith⟩
  have hinv0 : QInv C M 0 (QNode.leaf d0 []) := by
    apply QInv.leaf d0 [] 0 hvalid rfl rfl rfl
    intro q hq
    exact absurd hq (List.not_mem_nil q)
  obtain ⟨n', heq, hinv', hdata', hmul'⟩ :=
    buildLoop_ok C M (p :: rest) (QNode.leaf d0 []) 0 hinv0 hcont
  have hroot : (Quadtree.build C M (p :: rest)).root =
      (buildLoop (M + 1) (QNode.leaf d0 []) (p :: rest) 0).1 := rfl
  have hok : buildOk C M (p :: rest) =
      (buildLoop (M + 1) (QNode.leaf d0 []) (p :: rest) 0).2 := rfl
  refine ⟨n', by rw [hroot, heq], hinv', ?_, ?_, by rw [hok, heq], rfl, ?_⟩
  · rw [hmul', toMul_leaf]
    simp
  · intro q hq
    rw [hdata']
    exact hcont q hq
  · refine ⟨xlo, xhi, ylo, yhi, ?_, ?_, ?_, ?_, ?_⟩
    · constructor
      · rcases foldl_min_attained (rest.map Prod.fst) p.1 with h | h
        · rw [← hxlo_def] at h
          rw [h]
          exact List.mem_map_of_mem Prod.fst (List.mem_cons_self p rest)
        · rw [← hxlo_def] at h
          simp only [Set.mem_setOf_eq, List.map_cons]
          exact List.mem_cons_of_mem _ h
      · intro z hz
        simp only [Set.mem_setOf_eq, List.map_cons, List.mem_cons] at hz
        rcases hz with hz | hz
        · rw [hz]; exact foldl_min_le_init _ _
        · exact foldl_min_le_mem _ _ _ hz
    · constructor
      · rcases foldl_max_attained (rest.map Prod.fst) p.1 with h | h
        · rw [← hxhi_def] at h
          rw [h]
          exact List.mem_map_of_mem Prod.fst (List.mem_cons_self p rest)
        · rw [← hxhi_def] at h
          simp only [Set.mem_setOf_eq, List.map_cons]
          exact List.mem_cons_of_mem _ h
      · intro z hz
        simp only [Set.mem_setOf_eq, List.map_cons, List.mem_cons] at hz
        rcases hz with hz | hz
        · rw [hz]; exact foldl_max_ge_init _ _
        · exact foldl_max_ge_mem _ _ _ hz
    · constructor
      · rcases foldl_min_attained (rest.map Prod.snd) p.2 with h | h
        · rw [← hylo_def] at h
          rw [h]
          exact List.mem_map_of_mem Prod.snd (List.mem_cons_self p rest)
        · rw [← hylo_def] at h
          simp only [Set.mem_setOf_eq, List.map_cons]
          exact List.mem_cons_of_mem _ h
      · intro z hz
        simp only [Set.mem_setOf_eq, List.map_cons, List.mem_cons] at hz
        rcases hz with hz | hz
        · rw [hz]; exact foldl_min_le_init _ _
        · exact foldl_min_le_mem _ _ _ hz
    · constructor
      · rcases foldl_max_attained (rest.map Prod.snd) p.2 with h | h
        · rw [← hyhi_def] at h
          rw [h]
          exact List.mem_map_of_mem Prod.snd (List.mem_cons_self p rest)
        · rw [← hyhi_def] at h
          simp only [Set.mem_setOf_eq, List.map_cons]
          exact List.mem_cons_of_mem _ h
      · intro z hz
        simp only [Set.mem_setOf_eq, List.map_cons, List.mem_cons] at hz
        rcases hz with hz | hz
        · rw [hz]; exact foldl_max_ge_init _ _
        · exact foldl_max_ge_mem _ _ _ hz
    · rw [hdata']
      rfl

/-- Any sequence of further root inserts (with root fuel) preserves the
invariant. -/
theorem insertSeq_inv (C M : Nat) :
    ∀ (more : List (ℚ × ℚ × Nat)) (n : QNode),
      QInv C M 0 n → QInv C M 0 (insertSeq (M + 1) n more) := by
  intro more
  induction more with
  | nil => intro n hinv; exact hinv
  | cons q qs ih =>
    intro n hinv
    by_cases hc : n.data.contains q.1 q.2.1 = true
    · obtain ⟨n1, heq, hinv1, _, _⟩ :=
        insertFuel_ok (M + 1) C M 0 n q.1 q.2.1 q.2.2 hinv (by omega) (by omega) hc
      simp only [insertSeq, heq]
      exact ih n1 hinv1
    · have hc' : n.data.contains q.1 q.2.1 = false := by
        cases hcon : n.data.contains q.1 q.2.1 with
        | false => rfl
        | true => exact absurd hcon hc
      simp only [insertSeq, insert_out_of_bounds (M + 1) n q.1 q.2.1 q.2.2 hc']
      exact ih n hinv

/-- Querying with a box's own bounds is the same test as containment in
that box. -/
theorem inRange_box_eq_contains (d : NodeData) (p : Pt) :
    inRange d.x_min d.x_max d.y_min d.y_max p = d.contains p.x p.y := by
  cases hc : d.contains p.x p.y with
  | true =>
    rw [contains_iff] at hc
    rw [inRange_iff]
    tauto
  | false =>
    cases hr : inRange d.x_min d.x_max d.y_min d.y_max p with
    | false => rfl
    | true =>
      exfalso
      rw [inRange_iff] at hr
      have : d.contains p.x p.y = true := by
        rw [contains_iff]
        tauto
      rw [this] at hc
      exact Bool.true_eq_false ▸ hc

/-- The positive epsilon. -/
theorem eps_pos : (0 : ℚ) < eps := by norm_num [eps]

/-- The insertion loop on a leaf at depth 0 whose stored points all
coincide (within `eps`) with the first stored point: every insert
appends (capacity at least 2 makes the coincidence escape hatch fire
instead of a subdivision), so the node stays a single leaf collecting
all points, and every insert returns `True`. -/
theorem buildLoop_coincident (C M : Nat) (hC : 2 ≤ C) (d : NodeData)
    (x0 y0 : ℚ) (k : Nat) (hcap : d.capacity = C) :
    ∀ (qs : List (ℚ × ℚ)) (acc : List Pt) (i : Nat),
      (∀ q ∈ qs, d.contains q.1 q.2 = true) →
      (∀ q ∈ qs, |q.1 - x0| < eps ∧ |q.2 - y0| < eps) →
      (∀ p ∈ acc, |p.x - x0| < eps ∧ |p.y - y0| < eps) →
      buildLoop (M + 1) (QNode.leaf d ((⟨x0, y0, k⟩ : Pt) :: acc)) qs i =
        (QNode.leaf d (((⟨x0, y0, k⟩ : Pt) :: acc) ++ labelPts qs i), true) := by
  intro qs
  induction qs with
  | nil =>
    intro acc i _ _ _
    simp [buildLoop, labelPts]
  | cons q qs ih =>
    intro acc i hcont heps hacc
    have hc : (QNode.leaf d ((⟨x0, y0, k⟩ : Pt) :: acc)).data.contains q.1 q.2 = true :=
      hcont q (List.mem_cons_self q qs)
    have happ : insertFuel (M + 1) (QNode.leaf d ((⟨x0, y0, k⟩ : Pt) :: acc)) q.1 q.2 i =
        (QNode.leaf d (((⟨x0, y0, k⟩ : Pt) :: acc) ++ [⟨q.1, q.2, i⟩]), true) := by
      rw [insertFuel_unfold, hc]
      simp only [Bool.true_eq_false, if_false]
      by_cases hlen : ((⟨x0, y0, k⟩ : Pt) :: acc).length < d.capacity
      · simp only [hlen, if_true]
      · by_cases hmd : d.max_depth ≤ d.depth
        · simp only [hlen, hmd, if_false, if_true]
        · have hlen2 : 1 < ((⟨x0, y0, k⟩ : Pt) :: acc).length := by
            simp only [List.length_cons] at hlen ⊢
            rw [hcap] at hlen
            omega
          have hsame : allSamePoints ((⟨x0, y0, k⟩ : Pt) :: acc) = true := by
            simp only [allSamePoints, List.all_eq_true]
            intro p hp
            rcases List.mem_cons.mp hp with hp | hp
            · rw [hp]
              simp [eps_pos]
            · obtain ⟨h1, h2⟩ := hacc p hp
              simp only [Bool.and_eq_true, decide_eq_true_eq]
              exact ⟨h1, h2⟩
          have hsub : subdivideWith (insertFuel M) (QNode.leaf d ((⟨x0, y0, k⟩ : Pt) :: acc)) =
              QNode.leaf d ((⟨x0, y0, k⟩ : Pt) :: acc) := by
            simp only [subdivideWith, hmd, if_false]
            simp only [hlen2, decide_True, hsame, Bool.and_self, if_true]
          simp only [hlen, hmd, if_false, hsub]
    simp only [buildLoop, happ]
    have hstep := ih (acc ++ [⟨q.1, q.2, i⟩]) (i + 1)
      (fun q2 hq2 => hcont q2 (List.mem_cons_of_mem q hq2))
      (fun q2 hq2 => heps q2 (List.mem_cons_of_mem q hq2))
      (by
        intro p hp
        rcases List.mem_append.mp hp with hp | hp
        · exact hacc p hp
        · rw [List.mem_singleton.mp hp]
          exact heps q (List.mem_cons_self q qs))
    rw [show ((⟨x0, y0, k⟩ : Pt) :: acc) ++ [(⟨q.1, q.2, i⟩ : Pt)] =
        (⟨x0, y0, k⟩ : Pt) :: (acc ++ [⟨q.1, q.2, i⟩]) from rfl]
    rw [hstep]
    simp only [labelPts, Bool.true_and]
    rw [List.cons_append, List.append_assoc]
    rfl

/-! ## Claim theorems -/

/-- C6: for every node and every point lying outside that node's region,
`insert` returns `False` rather than raising, and the node's state
(points and children) is unchanged by the failed call — hence subsequent
inserts behave as if the failed call never happened. -/
theorem claim_C6_insert_out_of_bounds (fuel : Nat) (n : QNode) (x y : ℚ)
    (i : Nat) (h : n.data.contains x y = false) :
    insertFuel fuel n x y i = (n, false) :=
  insert_out_of_bounds fuel n x y i h

/-- C8: `contains` is true exactly when both coordinates lie within the
inclusive `[min, max]` bounds, and `intersects` is true exactly when no
dimension of the rectangle is fully disjoint from the node's bounds —
touching on a shared boundary counts as intersecting; both are total
(pure) functions in this embedding. -/
theorem claim_C8_contains_intersects (d : NodeData) (x y qx_min qx_max qy_min qy_max : ℚ) :
    (d.contains x y = true ↔
      (d.x_min ≤ x ∧ x ≤ d.x_max ∧ d.y_min ≤ y ∧ y ≤ d.y_max)) ∧
    (d.intersects qx_min qx_max qy_min qy_max = true ↔
      ¬(qx_max < d.x_min ∨ d.x_max < qx_min ∨ qy_max < d.y_min ∨ d.y_max < qy_min)) :=
  ⟨contains_iff d x y, by
    rw [intersects_iff]
    push_neg
    tauto⟩

/-- C9: on an invariant-satisfying divided node whose region contains
the point, at least one child's region contains it (so the fall-through
failure branch of `_insert_to_child` is unreachable), and both
`_insert_to_child` and `insert` succeed. -/
theorem claim_C9_insert_to_child_total (C M dep fuel : Nat) (d : NodeData)
    (pts : List Pt) (nw ne sw se : QNode) (x y : ℚ) (i : Nat)
    (hinv : QInv C M dep (QNode.inner d pts nw ne sw se))
    (hdep : dep ≤ M) (hfuel : M + 1 - dep ≤ fuel)
    (hc : d.contains x y = true) :
    (nw.data.contains x y || ne.data.contains x y ||
     sw.data.contains x y || se.data.contains x y) = true ∧
    (insertToChildWith (insertFuel fuel) (QNode.inner d pts nw ne sw se) x y i).2 = true ∧
    (insertFuel fuel (QNode.inner d pts nw ne sw se) x y i).2 = true := by
  obtain ⟨hpts, hparts⟩ := innerParts_of_inv C M dep d pts nw ne sw se hinv
  obtain ⟨hv, hcap, hmax, hdepd, hdepM, hnw, hne, hsw, hse, inw, ine, isw, ise⟩ := hparts
  have hcover : (nw.data.contains x y || ne.data.contains x y ||
      sw.data.contains x y || se.data.contains x y) = true := by
    rcases cover_children d x y hc with h | h | h | h
    · rw [hnw, h]; simp
    · rw [hne, h]; simp
    · rw [hsw, h]; simp
    · rw [hse, h]; simp
  have hrec : RecSpec C M (dep + 1) (insertFuel fuel) := by
    intro m x2 y2 i2 hi hcon
    exact insertFuel_ok fuel C M (dep + 1) m x2 y2 i2 hi (by omega) (by omega) hcon
  obtain ⟨nw2, ne2, sw2, se2, heq2, _, _⟩ :=
    insertToChildWith_ok C M dep (insertFuel fuel) hrec d pts nw ne sw se
      ⟨hv, hcap, hmax, hdepd, hdepM, hnw, hne, hsw, hse, inw, ine, isw, ise⟩ x y i hc
  refine ⟨hcover, by rw [heq2], ?_⟩
  obtain ⟨n', heq', _, _, _⟩ :=
    insertFuel_ok fuel C M dep (QNode.inner d pts nw ne sw se) x y i hinv hdep hfuel hc
  rw [heq']

/-- C10: `insert` terminates on every input — modelled by fuel, its
result is independent of the fuel once the fuel exceeds the remaining
depth budget `max_depth - depth`, since every recursive hop descends to
a child one depth level down and `subdivide` refuses to create children
at `max_depth`.  (`query_range` is structurally recursive on the tree
and total by construction.) -/
theorem claim_C10_insert_terminates (C M dep : Nat) (n : QNode) (x y : ℚ)
    (i : Nat) (hinv : QInv C M dep n) (hdep : dep ≤ M) (f1 f2 : Nat)
    (h1 : M + 1 - dep ≤ f1) (h2 : M + 1 - dep ≤ f2) :
    insertFuel f1 n x y i = insertFuel f2 n x y i :=
  insertFuel_stable C M dep n x y i hinv hdep f1 f2 h1 h2

/-- C5 (shape invariant): every node of a tree obtained by `build`
followed by any sequence of further root inserts is either an undivided
leaf or a divided node with an empty local point list and four children
whose regions are the midpoint subdivision of its own — covering the
parent's region exactly and overlapping only on shared boundaries.
(On an empty build the tree has no root and the default leaf is
trivially well-shaped.) -/
theorem claim_C5_leaf_or_internal (C M : Nat) (pts : List (ℚ × ℚ))
    (more : List (ℚ × ℚ × Nat)) :
    NodeOK (((Quadtree.build C M pts).insertMore more).root.getD
      (QNode.leaf ⟨0, 0, 0, 0, 0, 0, 0⟩ [])) := by
  cases pts with
  | nil =>
    have hnone : ((Quadtree.build C M ([] : List (ℚ × ℚ))).insertMore more).root =
        none := rfl
    rw [hnone, Option.getD_none]
    trivial
  | cons p rest =>
    obtain ⟨r, hroot, hinv, _, _, _, _, _⟩ := build_ok C M (p :: rest) (by simp)
    have hmax : (Quadtree.build C M (p :: rest)).max_depth = M := rfl
    have hmore : ((Quadtree.build C M (p :: rest)).insertMore more).root =
        some (insertSeq (M + 1) r more) := by
      simp [Quadtree.insertMore, hroot, hmax]
    rw [hmore, Option.getD_some]
    exact nodeOK_of_inv C M 0 _ (insertSeq_inv C M more r hinv)

/-- C3 (amended, depth bound off by one): the reported `get_depth` —
which counts an unsplit root as depth 1 — of a tree obtained by `build`
with configured `max_depth` and any sequence of further inserts never
exceeds `max_depth + 1`; equivalently, every node's zero-based `depth`
field stays at most `max_depth`.  The originally claimed bound
`get_depth ≤ max_depth` fails (see the counterexample). -/
theorem claim_C3_depth_bound_amended (C M : Nat) (pts : List (ℚ × ℚ))
    (more : List (ℚ × ℚ × Nat)) :
    ((Quadtree.build C M pts).insertMore more).get_depth ≤ M + 1 := by
  cases pts with
  | nil =>
    have h1 : ((Quadtree.build C M ([] : List (ℚ × ℚ))).insertMore more).get_depth =
        1 := rfl
    omega
  | cons p rest =>
    obtain ⟨r, hroot, hinv, _, _, _, _, _⟩ := build_ok C M (p :: rest) (by simp)
    have hmax : (Quadtree.build C M (p :: rest)).max_depth = M := rfl
    have hmore : ((Quadtree.build C M (p :: rest)).insertMore more).root =
        some (insertSeq (M + 1) r more) := by
      simp [Quadtree.insertMore, hroot, hmax]
    have hd : ((Quadtree.build C M (p :: rest)).insertMore more).get_depth =
        (insertSeq (M + 1) r more).getDepthRec := by
      simp [Quadtree.get_depth, hmore]
    rw [hd]
    have := getDepthRec_bound C M 0 (insertSeq (M + 1) r more)
      (insertSeq_inv C M more r hinv) (by omega)
    omega

/-- C1 (coverage): on any non-empty input, querying the built tree with
a box equal to the full root bounding region returns every inserted
record identifier exactly once — the result is a permutation of
`0, …, n-1` (no identifier missing, no duplicates). -/
theorem claim_C1_full_region_coverage (C M : Nat) (pts : List (ℚ × ℚ))
    (hne : pts ≠ []) :
    ((Quadtree.build C M pts).query_range
      ((Quadtree.build C M pts).rootData.x_min, (Quadtree.build C M pts).rootData.x_max)
      ((Quadtree.build C M pts).rootData.y_min, (Quadtree.build C M pts).rootData.y_max)).Perm
      (List.range pts.length) := by
  obtain ⟨r, hroot, hinv, hmul, hcont, hok, hsize, _⟩ := build_ok C M pts hne
  have hrd : (Quadtree.build C M pts).rootData = r.data := by
    simp [Quadtree.rootData, hroot]
  have hq : (Quadtree.build C M pts).query_range
      ((Quadtree.build C M pts).rootData.x_min, (Quadtree.build C M pts).rootData.x_max)
      ((Quadtree.build C M pts).rootData.y_min, (Quadtree.build C M pts).rootData.y_max) =
      r.query_range r.data.x_min r.data.x_max r.data.y_min r.data.y_max := by
    simp [Quadtree.query_range, hroot, hrd]
  rw [hq]
  apply Multiset.coe_eq_coe.mp
  rw [query_eq_filter C M 0 r hinv]
  have hfil : Multiset.filter
      (fun p => inRange r.data.x_min r.data.x_max r.data.y_min r.data.y_max p = true)
      r.toMul = r.toMul := by
    rw [Multiset.filter_eq_self]
    intro p hp
    rw [inRange_box_eq_contains]
    exact toMul_contains C M 0 r hinv p hp
  rw [hfil, hmul, Multiset.map_coe, labelPts_map_idx, ← List.range_eq_range']

/-- C2 (containment correctness): in a built tree over a non-empty
input, identifier `i` appears in the result of a range query exactly
when the `i`-th input point lies within the query box, with inclusive
bounds on every dimension — the pruning never drops a qualifying point
and boundary-exact points are reported. -/
theorem claim_C2_query_membership (C M : Nat) (pts : List (ℚ × ℚ))
    (hne : pts ≠ []) (i : Nat) (hi : i < pts.length) (a b c e : ℚ) :
    i ∈ (Quadtree.build C M pts).query_range (a, b) (c, e) ↔
      (a ≤ (pts.get ⟨i, hi⟩).1 ∧ (pts.get ⟨i, hi⟩).1 ≤ b ∧
       c ≤ (pts.get ⟨i, hi⟩).2 ∧ (pts.get ⟨i, hi⟩).2 ≤ e) := by
  obtain ⟨r, hroot, hinv, hmul, _, _, _, _⟩ := build_ok C M pts hne
  have hq : (Quadtree.build C M pts).query_range (a, b) (c, e) =
      r.query_range a b c e := by
    simp [Quadtree.query_range, hroot]
  rw [hq]
  have hmem : i ∈ r.query_range a b c e ↔
      i ∈ ((r.query_range a b c e : List Nat) : Multiset Nat) := by
    simp
  rw [hmem, query_eq_filter C M 0 r hinv, hmul]
  simp only [Multiset.mem_map, Multiset.mem_filter, Multiset.mem_coe]
  constructor
  · rintro ⟨p, ⟨hpmem, hpin⟩, hpidx⟩
    rw [labelPts_mem] at hpmem
    obtain ⟨j, hj, hpeq⟩ := hpmem
    subst hpeq
    simp only at hpidx
    have hji : j = i := by omega
    subst hji
    rw [inRange_iff] at hpin
    exact hpin
  · intro hcond
    refine ⟨⟨(pts.get ⟨i, hi⟩).1, (pts.get ⟨i, hi⟩).2, i⟩, ⟨?_, ?_⟩, rfl⟩
    · rw [labelPts_mem]
      exact ⟨i, hi, by simp⟩
    · rw [inRange_iff]
      exact hcond

/-- C7: on any non-empty input, `build` creates a root region equal to
the minimal enclosing bounding box of the 2-D points expanded by 1% of
each dimension's extent on each side, this region contains every input
point (also when an extent is zero and the padding vanishes), and the
index's `size` equals the number of input points. -/
theorem claim_C7_build_region_and_size (C M : Nat) (pts : List (ℚ × ℚ))
    (hne : pts ≠ []) :
    ∃ r, (Quadtree.build C M pts).root = some r ∧
      (∃ xlo xhi ylo yhi : ℚ,
        IsLeast {z : ℚ | z ∈ pts.map Prod.fst} xlo ∧
        IsGreatest {z : ℚ | z ∈ pts.map Prod.fst} xhi ∧
        IsLeast {z : ℚ | z ∈ pts.map Prod.snd} ylo ∧
        IsGreatest {z : ℚ | z ∈ pts.map Prod.snd} yhi ∧
        r.data = ⟨xlo - (xhi - xlo) * (1 / 100), xhi + (xhi - xlo) * (1 / 100),
          ylo - (yhi - ylo) * (1 / 100), yhi + (yhi - ylo) * (1 / 100), C, 0, M⟩) ∧
      (∀ q ∈ pts, r.data.contains q.1 q.2 = true) ∧
      (Quadtree.build C M pts).size = pts.length := by
  obtain ⟨r, hroot, _, _, hcont, _, hsize, hbox⟩ := build_ok C M pts hne
  exact ⟨r, hroot, hbox, hcont, hsize⟩

/-- C4 (amended: capacity at least 2): building over `N` points whose
coordinates all coincide with the first point's within the `1e-10`
epsilon on both dimensions, with capacity `2 ≤ C < N`, succeeds for all
`N` points (every insert returns `True`) without unbounded recursion,
and the resulting tree is a single undivided leaf holding all `N`
points.  For `C = 1` the coincidence escape hatch of `subdivide` does
not fire (it requires more than one stored point) and the root
subdivides, so the original claim fails there — see the
counterexample. -/
theorem claim_C4_coincident_single_leaf (C M : Nat) (hC : 2 ≤ C)
    (p0 : ℚ × ℚ) (rest : List (ℚ × ℚ))
    (hN : C < (p0 :: rest).length)
    (heps : ∀ q ∈ p0 :: rest, |q.1 - p0.1| < eps ∧ |q.2 - p0.2| < eps) :
    buildOk C M (p0 :: rest) = true ∧
    (∃ d : NodeData, (Quadtree.build C M (p0 :: rest)).root =
      some (QNode.leaf d (labelPts (p0 :: rest) 0))) ∧
    (Quadtree.build C M (p0 :: rest)).size = (p0 :: rest).length := by
  set xlo := (rest.map Prod.fst).foldl min p0.1 with hxlo_def
  set xhi := (rest.map Prod.fst).foldl max p0.1 with hxhi_def
  set ylo := (rest.map Prod.snd).foldl min p0.2 with hylo_def
  set yhi := (rest.map Prod.snd).foldl max p0.2 with hyhi_def
  have hxlo_le : ∀ q ∈ p0 :: rest, xlo ≤ q.1 := by
    intro q hq
    rcases List.mem_cons.mp hq with hq | hq
    · rw [hq]; exact foldl_min_le_init _ _
    · exact foldl_min_le_mem _ _ _ (List.mem_map_of_mem Prod.fst hq)
  have hxhi_ge : ∀ q ∈ p0 :: rest, q.1 ≤ xhi := by
    intro q hq
    rcases List.mem_cons.mp hq with hq | hq
    · rw [hq]; exact foldl_max_ge_init _ _
    · exact foldl_max_ge_mem _ _ _ (List.mem_map_of_mem Prod.fst hq)
  have hylo_le : ∀ q ∈ p0 :: rest, ylo ≤ q.2 := by
    intro q hq
    rcases List.mem_cons.mp hq with hq | hq
    · rw [hq]; exact foldl_min_le_init _ _
    · exact foldl_min_le_mem _ _ _ (List.mem_map_of_mem Prod.snd hq)
  have hyhi_ge : ∀ q ∈ p0 :: rest, q.2 ≤ yhi := by
    intro q hq
    rcases List.mem_cons.mp hq with hq | hq
    · rw [hq]; exact foldl_max_ge_init _ _
    · exact foldl_max_ge_mem _ _ _ (List.mem_map_of_mem Prod.snd hq)
  have hxord : xlo ≤ xhi := le_trans (hxlo_le p0 (List.mem_cons_self p0 rest))
    (hxhi_ge p0 (List.mem_cons_self p0 rest))
  have hyord : ylo ≤ yhi := le_trans (hylo_le p0 (List.mem_cons_self p0 rest))
    (hyhi_ge p0 (List.mem_cons_self p0 rest))
  have hxpad : 0 ≤ (xhi - xlo) * (1 / 100) := by nlinarith
  have hypad : 0 ≤ (yhi - ylo) * (1 / 100) := by nlinarith
  set d0 : NodeData :=
    ⟨xlo - (xhi - xlo) * (1 / 100), xhi + (xhi - xlo) * (1 / 100),
      ylo - (yhi - ylo) * (1 / 100), yhi + (yhi - ylo) * (1 / 100), C, 0, M⟩
    with hd0_def
  have hcont : ∀ q ∈ p0 :: rest, d0.contains q.1 q.2 = true := by
    intro q hq
    rw [contains_iff]
    have h1 := hxlo_le q hq
    have h2 := hxhi_ge q hq
    have h3 := hylo_le q hq
    have h4 := hyhi_ge q hq
    simp only [hd0_def]
    refine ⟨by linarith, by linarith, by linarith, by linarith⟩
  have hcap0 : d0.capacity = C := rfl
  have step0 : insertFuel (M + 1) (QNode.leaf d0 []) p0.1 p0.2 0 =
      (QNode.leaf d0 [⟨p0.1, p0.2, 0⟩], true) := by
    have hc0 : (QNode.leaf d0 ([] : List Pt)).data.contains p0.1 p0.2 = true :=
      hcont p0 (List.mem_cons_self p0 rest)
    rw [insertFuel_unfold, hc0]
    simp only [Bool.true_eq_false, if_false]
    have hlen0 : ([] : List Pt).length < d0.capacity := by
      rw [hcap0]
      simp only [List.length_nil]
      omega
    simp only [hlen0, if_true]
    rfl
  have hloop := buildLoop_coincident C M hC d0 p0.1 p0.2 0 hcap0 rest [] 1
    (fun q hq => hcont q (List.mem_cons_of_mem p0 hq))
    (fun q hq => heps q (List.mem_cons_of_mem p0 hq))
    (fun p hp => absurd hp (List.not_mem_nil p))
  have hfull : buildLoop (M + 1) (QNode.leaf d0 []) (p0 :: rest) 0 =
      (QNode.leaf d0 (labelPts (p0 :: rest) 0), true) := by
    simp only [buildLoop, step0]
    rw [hloop]
    simp [labelPts]
  refine ⟨?_, ⟨d0, ?_⟩, rfl⟩
  · have hok : buildOk C M (p0 :: rest) =
        (buildLoop (M + 1) (QNode.leaf d0 []) (p0 :: rest) 0).2 := rfl
    rw [hok, hfull]
  · have hroot2 : (Quadtree.build C M (p0 :: rest)).root =
        some (buildLoop (M + 1) (QNode.leaf d0 []) (p0 :: rest) 0).1 := rfl
    rw [hroot2, hfull]

set_option maxHeartbeats 1600000 in
/-- C3 counterexample: a build with capacity 1 and `max_depth = 1` over
two distinct points subdivides the root once, and `get_depth` (root
counting as 1) reports 2, exceeding the configured `max_depth = 1`.
The zero-based `depth` fields themselves never exceed `max_depth`; the
spec's bound conflates the two counting conventions. -/
theorem claim_C3_counterexample :
    (Quadtree.build 1 1 [(0, 0), (1, 1)]).get_depth = 2 ∧
    (Quadtree.build 1 1 [(0, 0), (1, 1)]).max_depth = 1 := by
  constructor
  · norm_num [Quadtree.build, buildLoop, insertFuel, insertToChildWith, subdivideWith,
      allSamePoints, QNode.clearPoints, QNode.data, NodeData.contains, nwData, neData,
      swData, seData, NodeData.x_mid, NodeData.y_mid, Quadtree.get_depth,
      QNode.getDepthRec, eps, min_def, max_def]
  · rfl

set_option maxHeartbeats 3200000 in
/-- C4 counterexample: with capacity `C = 1 < N = 2` and two coincident
points, the root holds one point when the second arrives, so the
`len(points) > 1` guard skips the coincidence check and the node
subdivides all the way to `max_depth` — the insert calls still return
`True`, but the resulting tree is a divided root of depth 3 (for
`max_depth = 2`), not a single undivided leaf. -/
theorem claim_C4_counterexample :
    ((Quadtree.build 1 2 [(5, 5), (5, 5)]).root.map QNode.is_divided) = some true ∧
    (Quadtree.build 1 2 [(5, 5), (5, 5)]).get_depth = 3 ∧
    buildOk 1 2 [(5, 5), (5, 5)] = true := by
  refine ⟨?_, ?_, ?_⟩ <;>
    norm_num [Quadtree.build, buildOk, buildLoop, insertFuel, insertToChildWith,
      subdivideWith, allSamePoints, QNode.clearPoints, QNode.data, QNode.is_divided,
      NodeData.contains, nwData, neData, swData, seData, NodeData.x_mid,
      NodeData.y_mid, Quadtree.get_depth, QNode.getDepthRec, eps, min_def, max_def]

/-- Witness for C1 at a concrete input. -/
theorem claim_C1_witness :
    (([((0 : ℚ), (0 : ℚ)), ((1 : ℚ), (1 : ℚ))] : List (ℚ × ℚ)) ≠ []) ∧
    ((Quadtree.build 50 25 [((0 : ℚ), (0 : ℚ)), ((1 : ℚ), (1 : ℚ))]).query_range
      ((Quadtree.build 50 25 [((0 : ℚ), (0 : ℚ)), ((1 : ℚ), (1 : ℚ))]).rootData.x_min,
       (Quadtree.build 50 25 [((0 : ℚ), (0 : ℚ)), ((1 : ℚ), (1 : ℚ))]).rootData.x_max)
      ((Quadtree.build 50 25 [((0 : ℚ), (0 : ℚ)), ((1 : ℚ), (1 : ℚ))]).rootData.y_min,
       (Quadtree.build 50 25 [((0 : ℚ), (0 : ℚ)), ((1 : ℚ), (1 : ℚ))]).rootData.y_max)).Perm
      (List.range 2) :=
  ⟨by simp, claim_C1_full_region_coverage 50 25 _ (by simp)⟩

/-- Witness for C2 at a concrete input and query box. -/
theorem claim_C2_witness :
    (([((0 : ℚ), (0 : ℚ)), ((3 : ℚ), (4 : ℚ))] : List (ℚ × ℚ)) ≠ []) ∧
    ((0 : Nat) < 2) ∧
    ((0 : Nat) ∈ (Quadtree.build 50 25 [((0 : ℚ), (0 : ℚ)), ((3 : ℚ), (4 : ℚ))]).query_range
        (-1, 1) (-1, 1) ↔
      ((-1 : ℚ) ≤ 0 ∧ (0 : ℚ) ≤ 1 ∧ (-1 : ℚ) ≤ 0 ∧ (0 : ℚ) ≤ 1)) :=
  ⟨by simp, by omega,
    claim_C2_query_membership 50 25 [((0 : ℚ), (0 : ℚ)), ((3 : ℚ), (4 : ℚ))]
      (by simp) 0 (by simp) (-1) 1 (-1) 1⟩

/-- Witness for C4 (amended) at a concrete input. -/
theorem claim_C4_witness :
    (2 ≤ 2) ∧
    (2 < ([((5 : ℚ), (5 : ℚ)), ((5 : ℚ), (5 : ℚ)), ((5 : ℚ), (5 : ℚ))] : List (ℚ × ℚ)).length) ∧
    (∀ q ∈ ([((5 : ℚ), (5 : ℚ)), ((5 : ℚ), (5 : ℚ)), ((5 : ℚ), (5 : ℚ))] : List (ℚ × ℚ)),
      |q.1 - (5 : ℚ)| < eps ∧ |q.2 - (5 : ℚ)| < eps) ∧
    (buildOk 2 25 [((5 : ℚ), (5 : ℚ)), ((5 : ℚ), (5 : ℚ)), ((5 : ℚ), (5 : ℚ))] = true ∧
     (∃ d : NodeData,
        (Quadtree.build 2 25 [((5 : ℚ), (5 : ℚ)), ((5 : ℚ), (5 : ℚ)), ((5 : ℚ), (5 : ℚ))]).root =
          some (QNode.leaf d
            (labelPts [((5 : ℚ), (5 : ℚ)), ((5 : ℚ), (5 : ℚ)), ((5 : ℚ), (5 : ℚ))] 0))) ∧
     (Quadtree.build 2 25 [((5 : ℚ), (5 : ℚ)), ((5 : ℚ), (5 : ℚ)), ((5 : ℚ), (5 : ℚ))]).size = 3) :=
  ⟨by omega, by simp, by norm_num [eps],
    claim_C4_coincident_single_leaf 2 25 (by omega) ((5 : ℚ), (5 : ℚ))
      [((5 : ℚ), (5 : ℚ)), ((5 : ℚ), (5 : ℚ))] (by simp) (by norm_num [eps])⟩

/-- Witness for C6 at a concrete node and out-of-bounds point. -/
theorem claim_C6_witness :
    ((QNode.leaf ⟨0, 1, 0, 1, 4, 0, 25⟩ []).data.contains 5 5 = false) ∧
    insertFuel 26 (QNode.leaf ⟨0, 1, 0, 1, 4, 0, 25⟩ []) 5 5 0 =
      (QNode.leaf ⟨0, 1, 0, 1, 4, 0, 25⟩ [], false) :=
  ⟨by decide, claim_C6_insert_out_of_bounds 26 _ 5 5 0 (by decide)⟩

/-- Witness for C7 at a concrete input. -/
theorem claim_C7_witness :
    (([((0 : ℚ), (0 : ℚ)), ((2 : ℚ), (6 : ℚ))] : List (ℚ × ℚ)) ≠ []) ∧
    (∃ r, (Quadtree.build 50 25 [((0 : ℚ), (0 : ℚ)), ((2 : ℚ), (6 : ℚ))]).root = some r ∧
      (∃ xlo xhi ylo yhi : ℚ,
        IsLeast {z : ℚ | z ∈ ([((0 : ℚ), (0 : ℚ)), ((2 : ℚ), (6 : ℚ))] : List (ℚ × ℚ)).map Prod.fst} xlo ∧
        IsGreatest {z : ℚ | z ∈ ([((0 : ℚ), (0 : ℚ)), ((2 : ℚ), (6 : ℚ))] : List (ℚ × ℚ)).map Prod.fst} xhi ∧
        IsLeast {z : ℚ | z ∈ ([((0 : ℚ), (0 : ℚ)), ((2 : ℚ), (6 : ℚ))] : List (ℚ × ℚ)).map Prod.snd} ylo ∧
        IsGreatest {z : ℚ | z ∈ ([((0 : ℚ), (0 : ℚ)), ((2 : ℚ), (6 : ℚ))] : List (ℚ × ℚ)).map Prod.snd} yhi ∧
        r.data = ⟨xlo - (xhi - xlo) * (1 / 100), xhi + (xhi - xlo) * (1 / 100),
          ylo - (yhi - ylo) * (1 / 100), yhi + (yhi - ylo) * (1 / 100), 50, 0, 25⟩) ∧
      (∀ q ∈ ([((0 : ℚ), (0 : ℚ)), ((2 : ℚ), (6 : ℚ))] : List (ℚ × ℚ)),
        r.data.contains q.1 q.2 = true) ∧
      (Quadtree.build 50 25 [((0 : ℚ), (0 : ℚ)), ((2 : ℚ), (6 : ℚ))]).size = 2) :=
  ⟨by simp, claim_C7_build_region_and_size 50 25 _ (by simp)⟩

/-- Witness for C9 at a concrete divided node. -/
theorem claim_C9_witness :
    QInv 2 3 0 (QNode.inner ⟨0, 4, 0, 4, 2, 0, 3⟩ []
      (QNode.leaf ⟨0, 2, 2, 4, 2, 1, 3⟩ []) (QNode.leaf ⟨2, 4, 2, 4, 2, 1, 3⟩ [])
      (QNode.leaf ⟨0, 2, 0, 2, 2, 1, 3⟩ []) (QNode.leaf ⟨2, 4, 0, 2, 2, 1, 3⟩ [])) ∧
    ((0 : Nat) ≤ 3) ∧ (3 + 1 - 0 ≤ 4) ∧
    ((⟨0, 4, 0, 4, 2, 0, 3⟩ : NodeData).contains 1 3 = true) ∧
    (((QNode.leaf ⟨0, 2, 2, 4, 2, 1, 3⟩ ([] : List Pt)).data.contains 1 3 ||
      (QNode.leaf ⟨2, 4, 2, 4, 2, 1, 3⟩ ([] : List Pt)).data.contains 1 3 ||
      (QNode.leaf ⟨0, 2, 0, 2, 2, 1, 3⟩ ([] : List Pt)).data.contains 1 3 ||
      (QNode.leaf ⟨2, 4, 0, 2, 2, 1, 3⟩ ([] : List Pt)).data.contains 1 3) = true ∧
     (insertToChildWith (insertFuel 4) (QNode.inner ⟨0, 4, 0, 4, 2, 0, 3⟩ []
        (QNode.leaf ⟨0, 2, 2, 4, 2, 1, 3⟩ []) (QNode.leaf ⟨2, 4, 2, 4, 2, 1, 3⟩ [])
        (QNode.leaf ⟨0, 2, 0, 2, 2, 1, 3⟩ []) (QNode.leaf ⟨2, 4, 0, 2, 2, 1, 3⟩ []))
        1 3 0).2 = true ∧
     (insertFuel 4 (QNode.inner ⟨0, 4, 0, 4, 2, 0, 3⟩ []
        (QNode.leaf ⟨0, 2, 2, 4, 2, 1, 3⟩ []) (QNode.leaf ⟨2, 4, 2, 4, 2, 1, 3⟩ [])
        (QNode.leaf ⟨0, 2, 0, 2, 2, 1, 3⟩ []) (QNode.leaf ⟨2, 4, 0, 2, 2, 1, 3⟩ []))
        1 3 0).2 = true) := by
  have inw : QInv 2 3 1 (QNode.leaf ⟨0, 2, 2, 4, 2, 1, 3⟩ []) :=
    QInv.leaf _ _ _ ⟨by norm_num, by norm_num⟩ rfl rfl rfl
      (fun p hp => absurd hp (List.not_mem_nil p))
  have ine : QInv 2 3 1 (QNode.leaf ⟨2, 4, 2, 4, 2, 1, 3⟩ []) :=
    QInv.leaf _ _ _ ⟨by norm_num, by norm_num⟩ rfl rfl rfl
      (fun p hp => absurd hp (List.not_mem_nil p))
  have isw : QInv 2 3 1 (QNode.leaf ⟨0, 2, 0, 2, 2, 1, 3⟩ []) :=
    QInv.leaf _ _ _ ⟨by norm_num, by norm_num⟩ rfl rfl rfl
      (fun p hp => absurd hp (List.not_mem_nil p))
  have ise : QInv 2 3 1 (QNode.leaf ⟨2, 4, 0, 2, 2, 1, 3⟩ []) :=
    QInv.leaf _ _ _ ⟨by norm_num, by norm_num⟩ rfl rfl rfl
      (fun p hp => absurd hp (List.not_mem_nil p))
  have hinv : QInv 2 3 0 (QNode.inner ⟨0, 4, 0, 4, 2, 0, 3⟩ []
      (QNode.leaf ⟨0, 2, 2, 4, 2, 1, 3⟩ []) (QNode.leaf ⟨2, 4, 2, 4, 2, 1, 3⟩ [])
      (QNode.leaf ⟨0, 2, 0, 2, 2, 1, 3⟩ []) (QNode.leaf ⟨2, 4, 0, 2, 2, 1, 3⟩ [])) :=
    QInv.inner _ 0 _ _ _ _ ⟨by norm_num, by norm_num⟩ rfl rfl rfl (by omega)
      (by norm_num [QNode.data, nwData, NodeData.x_mid, NodeData.y_mid])
      (by norm_num [QNode.data, neData, NodeData.x_mid, NodeData.y_mid])
      (by norm_num [QNode.data, swData, NodeData.x_mid, NodeData.y_mid])
      (by norm_num [QNode.data, seData, NodeData.x_mid, NodeData.y_mid])
      inw ine isw ise
  exact ⟨hinv, by omega, by omega, by decide,
    claim_C9_insert_to_child_total 2 3 0 4 _ _ _ _ _ _ 1 3 0 hinv (by omega) (by omega)
      (by decide)⟩

/-- Witness for C10 at a concrete node and two sufficient fuels. -/
theorem claim_C10_witness :
    QInv 2 3 0 (QNode.leaf ⟨0, 4, 0, 4, 2, 0, 3⟩ []) ∧
    ((0 : Nat) ≤ 3) ∧ (3 + 1 - 0 ≤ 4) ∧ (3 + 1 - 0 ≤ 9) ∧
    insertFuel 4 (QNode.leaf ⟨0, 4, 0, 4, 2, 0, 3⟩ []) 1 3 7 =
      insertFuel 9 (QNode.leaf ⟨0, 4, 0, 4, 2, 0, 3⟩ []) 1 3 7 := by
  have hinv : QInv 2 3 0 (QNode.leaf ⟨0, 4, 0, 4, 2, 0, 3⟩ []) :=
    QInv.leaf _ _ _ ⟨by norm_num, by norm_num⟩ rfl rfl rfl
      (fun p hp => absurd hp (List.not_mem_nil p))
  exact ⟨hinv, by omega, by omega, by omega,
    claim_C10_insert_terminates 2 3 0 _ 1 3 7 hinv (by omega) 4 9 (by omega) (by omega)⟩
